import Mathlib

/-!
# collection-go: generic containers `Map` and `Vector`

A shallow embedding of `map.go` and `vector.go`.

* A Go `map[K]V` is a reference to a key-unique table or `nil`.  It is modelled
  as `Option (List (K × V))`: `none` is the nil map, `some l` an allocated map
  whose entries are the pairs of `l`.  The functions assume, but do not
  require, that no two keys of `l` are equal under `==` (`RawMap.WF`); separate
  lemmas show that every operation keeps them so.
* The operator `==` of a `comparable` type is the class `GoEq`: a symmetric
  and transitive test that need not hold between a value and itself (a float
  NaN is not equal to itself) and may hold between values that differ (the two
  float zeros).  Map keys and the elements `Contains` scans are compared with
  it.  A comparison never panics: interface values whose dynamic type is not
  comparable are left out.
* The order in which `range` yields the entries of a map is chosen by the Go
  runtime.  It is a parameter, `RangeOrder`, of every function that ranges
  over a map; the results hold for every such choice.
* A Go slice is a header (array, offset, length, capacity) over a backing
  array that lives in a heap of arrays, so that two slice values can share
  storage.
* A run-time panic is the `Except.error` result.  Memory is unbounded: an
  allocation never fails.
* The argument of `PopN` is a Go `int`, an `Int` here; the subtraction
  `v.Len()-n` wraps to 64 bits as in Go.  Results that depend on it assume
  the lengths and the argument in the range of `int`.
* A caller-supplied visitor is a function of a state of its own, which does
  not include the map it visits: the package leaves a visitor that changes
  the map during `Foreach` undefined.  The callback of `Do` and `DoMut` is a
  function of the wrapped container and of a state of its own.
* The lock `sync.RWMutex` of the Go library is modelled after its
  documentation for a run of one goroutine: a lock call that would block
  never returns, which is the fault `deadlock`.  The lock carries a history,
  which is not in Go, of the calls made on it and of the uses of the container
  it guards.
-/

namespace Collection

/-- The run-time panics and fatal errors the code of this package can raise. -/
inductive Fault where
  /-- A slice expression `s[:k]` with `k` outside `0..cap(s)`. -/
  | sliceBounds
  /-- Assignment to an entry of a nil map. -/
  | nilMapAssign
  /-- An index expression `a[i]` with `i` outside `0..len(a)-1`. -/
  | indexRange
  /-- A lock operation that can never return: every goroutine is blocked. -/
  | deadlock
  /-- An unlock of a lock that is not held. -/
  | unlockOfUnlocked
  deriving DecidableEq, Repr

/-! ## Equality of comparable types -/

/-- The operator `==` of Go on a `comparable` type: symmetric and transitive,
not always reflexive. -/
class GoEq (α : Type) where
  eq : α → α → Bool
  symm : ∀ a b, eq a b = true → eq b a = true
  trans : ∀ a b c, eq a b = true → eq b c = true → eq a c = true

/-- The operator `==` on Go `int`, here on `Nat`: equality. -/
instance instGoEqNat : GoEq Nat where
  eq a b := decide (a = b)
  symm a b h := by
    simp only [decide_eq_true_eq] at h ⊢
    exact h.symm
  trans a b c h1 h2 := by
    simp only [decide_eq_true_eq] at h1 h2 ⊢
    exact h1.trans h2

/-- The values of Go `float64` that matter for `==`: NaN, the two zeros, and
the other numbers, named by a code. -/
inductive Float64 where
  | nan
  | posZero
  | negZero
  | num (code : Nat)
  deriving DecidableEq, Repr

/-- The zero value of `float64` is `+0`. -/
instance instInhabitedFloat64 : Inhabited Float64 := ⟨Float64.posZero⟩

/-- The operator `==` on `float64`: NaN is equal to nothing, itself included;
the two zeros are equal. -/
def Float64.goEq : Float64 → Float64 → Bool
  | .nan, _ => false
  | _, .nan => false
  | .num a, .num b => decide (a = b)
  | .num _, _ => false
  | _, .num _ => false
  | _, _ => true

instance instGoEqFloat64 : GoEq Float64 where
  eq := Float64.goEq
  symm a b h := by
    cases a <;> cases b <;> simp_all [Float64.goEq]
  trans a b c h1 h2 := by
    cases a <;> cases b <;> cases c <;> simp_all [Float64.goEq]

/-! ## Go maps -/

/-- A Go value of type `map[K]V`: `none` is `nil`. -/
abbrev RawMap (K V : Type) := Option (List (K × V))

/-- The choice the runtime makes of the order in which `range` yields the
entries of a map: any rearrangement of the entries. -/
structure RangeOrder (α : Type) where
  order : List α → List α
  perm : ∀ l, (order l).Perm l

/-- The runtime that ranges over a table in the order it is stored. -/
def RangeOrder.stored (α : Type) : RangeOrder α := ⟨fun l => l, fun _ => List.Perm.refl _⟩

/-- The runtime that ranges over a table in the reverse order. -/
def RangeOrder.reversed (α : Type) : RangeOrder α := ⟨List.reverse, List.reverse_perm⟩

namespace RawMap

variable {K V : Type}

/-- The entries of a map; a nil map has none. -/
def entries : RawMap K V → List (K × V)
  | none => []
  | some l => l

/-- Go `len(m)`. -/
def len (m : RawMap K V) : Nat := (entries m).length

/-- Keys are unique: no two entries have keys that are equal under `==`. -/
def WF [GoEq K] (m : RawMap K V) : Prop :=
  ((entries m).map Prod.fst).Pairwise (fun a b => GoEq.eq a b = false)

instance decidableWF [GoEq K] (m : RawMap K V) : Decidable (WF m) :=
  inferInstanceAs (Decidable
    (((entries m).map Prod.fst).Pairwise (fun a b => GoEq.eq a b = false)))

/-- Search of a table for the entry whose key is equal to `k` under `==`. -/
def find [GoEq K] (k : K) : List (K × V) → Option V
  | [] => none
  | (k', v') :: t => if GoEq.eq k' k then some v' else find k t

/-- The entry that `find` stops at, with its key. -/
def findEntry [GoEq K] (k : K) : List (K × V) → Option (K × V)
  | [] => none
  | (k', v') :: t => if GoEq.eq k' k then some (k', v') else findEntry k t

/-- Go `v, ok := m[k]`: the zero value and `false` when `k` has no entry, also
on a nil map. -/
def lookup [GoEq K] [Inhabited V] (m : RawMap K V) (k : K) : V × Bool :=
  match find k (entries m) with
  | some v => (v, true)
  | none => (default, false)

/-- Store `v` under `k` in a table: the entry whose key is equal to `k` under
`==` is overwritten, key and value; when there is none an entry is added. -/
def insert [GoEq K] (k : K) (v : V) : List (K × V) → List (K × V)
  | [] => [(k, v)]
  | (k', v') :: t => if GoEq.eq k' k then (k, v) :: t else (k', v') :: insert k v t

/-- Go `m[k] = v`: panics on a nil map. -/
def assign [GoEq K] (m : RawMap K V) (k : K) (v : V) : Except Fault (RawMap K V) :=
  match m with
  | none => .error .nilMapAssign
  | some l => .ok (some (insert k v l))

/-- Remove from a table the entry whose key is equal to `k` under `==`. -/
def remove [GoEq K] (k : K) : List (K × V) → List (K × V)
  | [] => []
  | (k', v') :: t => if GoEq.eq k' k then remove k t else (k', v') :: remove k t

/-- Go `delete(m, k)`: a no-op on a nil map and when `k` has no entry. -/
def delete [GoEq K] (m : RawMap K V) (k : K) : RawMap K V :=
  match m with
  | none => none
  | some l => some (remove k l)

/-- Go `make(map[K]V)`. -/
def make : RawMap K V := some []

end RawMap

/-- Map provides wrapped Go map for various operations. -/
structure Map (K V : Type) where
  Raw : RawMap K V

namespace Map

variable {K V : Type}

/-- Method `func (m *Map[K, V]) Len() int`. -/
def Len (m : Map K V) : Nat := RawMap.len m.Raw

/-- The body of `for k, v := range m.Raw { if err := f(k, v); err != nil { return err } }; return nil`
over the entries in the order the runtime yields them.  The visitor is a
function of its own state `σ`; `none` is the nil error. -/
def foreachLoop {σ ε : Type} (f : K → V → σ → σ × Option ε) : List (K × V) → σ → σ × Option ε
  | [], s => (s, none)
  | (k, v) :: t, s =>
    match f k v s with
    | (s', some err) => (s', some err)
    | (s', none) => foreachLoop f t s'

/-- Method `func (m *Map[K, V]) Foreach(f func(K, V) error) error`: the receiver after
the call, the state of the visitor after the call, and the returned error. -/
def Foreach {σ ε : Type} (ro : RangeOrder (K × V)) (m : Map K V) (f : K → V → σ → σ × Option ε)
    (s : σ) : Map K V × σ × Option ε :=
  (m, foreachLoop f (ro.order (RawMap.entries m.Raw)) s)

/-- Method `func (m *Map[K, V]) Delete(k K)`. -/
def Delete [GoEq K] (m : Map K V) (k : K) : Map K V :=
  { Raw := RawMap.delete m.Raw k }

/-- Method `func (m *Map[K, V]) Set(k K, v V)`: allocates the store when it is nil,
then assigns. -/
def Set [GoEq K] (m : Map K V) (k : K) (v : V) : Except Fault (Map K V) :=
  let m1 : Map K V := if m.Raw.isNone then { Raw := RawMap.make } else m
  match RawMap.assign m1.Raw k v with
  | .error e => .error e
  | .ok r => .ok { Raw := r }

/-- Method `func (m *Map[K, V]) Get(k K) (V, bool)`. -/
def Get [GoEq K] [Inhabited V] (m : Map K V) (k : K) : V × Bool :=
  RawMap.lookup m.Raw k

end Map

/-- One step of a sequence of `Set` and `Delete` calls. -/
inductive MapOp (K V : Type) where
  | set (k : K) (v : V)
  | delete (k : K)
  deriving DecidableEq, Repr

/-- The calls of a sequence applied to a map one after the other, stopping at
the first panic. -/
def Map.run {K V : Type} [GoEq K] : Map K V → List (MapOp K V) → Except Fault (Map K V)
  | m, [] => .ok m
  | m, .set k v :: ops =>
    match m.Set k v with
    | .error e => .error e
    | .ok m' => Map.run m' ops
  | m, .delete k :: ops => Map.run (m.Delete k) ops

/-- In the words of the specification: `Set(k, v)` is the most recent `Set` of
`k` in `ops` and no `Delete(k)` follows it. -/
def MostRecentLiveSet {K V : Type} (ops : List (MapOp K V)) (k : K) (v : V) : Prop :=
  ∃ pre post, ops = pre ++ MapOp.set k v :: post ∧
    (∀ v', MapOp.set k v' ∉ post) ∧ MapOp.delete k ∉ post

/-- The visitor `f` instrumented to record each of its invocations, with the
error it returned, in call order. -/
def traced {K V σ ε : Type} (f : K → V → σ → σ × Option ε) :
    K → V → σ × List ((K × V) × Option ε) → (σ × List ((K × V) × Option ε)) × Option ε :=
  fun k v st =>
    let r := f k v st.1
    ((r.1, st.2 ++ [((k, v), r.2)]), r.2)

/-- With keys compared as the map compares them: `Set(k', v)` is the most
recent `Set` in `ops` on a key equal to `k` under `==`, and no `Delete` on a
key equal to `k` follows it. -/
def LiveSet {K V : Type} [GoEq K] (ops : List (MapOp K V)) (k : K) (v : V) : Prop :=
  ∃ pre post k', ops = pre ++ MapOp.set k' v :: post ∧ GoEq.eq k' k = true ∧
    (∀ k'' v', MapOp.set k'' v' ∈ post → GoEq.eq k'' k = false) ∧
    (∀ k'', MapOp.delete k'' ∈ post → GoEq.eq k'' k = false)

/-- The entry of `k` that a sequence of calls leaves behind, given the entry
`acc` before it. -/
def Map.liveFrom {K V : Type} [GoEq K] (k : K) : Option V → List (MapOp K V) → Option V
  | acc, [] => acc
  | acc, .set k' v :: ops => Map.liveFrom k (if GoEq.eq k' k then some v else acc) ops
  | acc, .delete k' :: ops => Map.liveFrom k (if GoEq.eq k' k then none else acc) ops

/-- The invocations of the visitor that `foreachLoop` makes over the entries
`l` from the state `s`, each with the error it returned, in call order. -/
def Map.calls {K V σ ε : Type} (f : K → V → σ → σ × Option ε) :
    List (K × V) → σ → List ((K × V) × Option ε)
  | [], _ => []
  | (k, v) :: t, s =>
    match f k v s with
    | (_, some err) => [((k, v), some err)]
    | (s', none) => ((k, v), none) :: Map.calls f t s'

/-! ## Go slices -/

/-- The heap of backing arrays: the array at address `i` is the `i`-th one. -/
abbrev Heap (E : Type) := List (List E)

/-- A Go value of type `[]E`: the address of the backing array, the offset of
the first element in it, the length and the capacity.  The nil slice has
capacity 0. -/
structure Slice (E : Type) where
  arr : Nat
  off : Nat
  len : Nat
  cap : Nat
  deriving DecidableEq, Repr

/-- Go `int` arithmetic: the result of an operation wrapped to 64 bits, two's
complement. -/
def wrapInt64 (x : Int) : Int := (x + 2 ^ 63) % 2 ^ 64 - 2 ^ 63

namespace Slice

variable {E : Type}

/-- The backing array of a slice. -/
def array (h : Heap E) (s : Slice E) : List E := h.getD s.arr []

/-- The window of a slice lies within its backing array. -/
def WF (h : Heap E) (s : Slice E) : Prop :=
  s.len ≤ s.cap ∧ s.off + s.cap ≤ (array h s).length

instance decidableSliceWF (h : Heap E) (s : Slice E) : Decidable (WF h s) :=
  inferInstanceAs (Decidable (s.len ≤ s.cap ∧ s.off + s.cap ≤ (array h s).length))

/-- The elements `s[0], ..., s[len(s)-1]`. -/
def elems (h : Heap E) (s : Slice E) : List E := ((array h s).drop s.off).take s.len

/-- Go `s[:k]`: panics unless `0 <= k <= cap(s)`; the array, the offset and the
capacity stay. -/
def sliceTo (s : Slice E) (k : Int) : Except Fault (Slice E) :=
  if 0 ≤ k ∧ k ≤ (s.cap : Int) then .ok { s with len := k.toNat } else .error .sliceBounds

/-- The array `a` with `es` stored from index `i` on. -/
def write (a : List E) (i : Nat) (es : List E) : List E :=
  a.take i ++ es ++ a.drop (i + es.length)

/-- Go `append(s, es...)`: when the capacity suffices, `es` is stored in the
backing array right after the elements of `s`; otherwise a new array is
allocated, of a capacity the runtime chooses with `grow` (from the old capacity
and the length needed) and not below the length needed, holding the elements of
`s`, then `es`, then zero values. -/
def append [Inhabited E] (grow : Nat → Nat → Nat) (h : Heap E) (s : Slice E) (es : List E) :
    Heap E × Slice E :=
  if s.len + es.length ≤ s.cap then
    (h.set s.arr (write (array h s) (s.off + s.len) es), { s with len := s.len + es.length })
  else
    (h ++ [elems h s ++ es ++
        List.replicate (max (s.len + es.length) (grow s.cap (s.len + es.length)) -
          (s.len + es.length)) default],
     { arr := h.length, off := 0, len := s.len + es.length,
       cap := max (s.len + es.length) (grow s.cap (s.len + es.length)) })

end Slice

/-- Vector provides wrapped Go slice for various operations. -/
structure Vector (E : Type) where
  Raw : Slice E
  deriving DecidableEq, Repr

namespace Vector

variable {E : Type}

/-- Method `func (v *Vector[E]) Len() int`. -/
def Len (v : Vector E) : Nat := v.Raw.len

/-- Method `func (v *Vector[E]) Cap() int`. -/
def Cap (v : Vector E) : Nat := v.Raw.cap

/-- The contents of a vector: its elements in index order. -/
def elems (h : Heap E) (v : Vector E) : List E := v.Raw.elems h

/-- Method `func (v *Vector[E]) Append(e ...E) Vector[E]`: the heap after the call and
the returned vector; the receiver is not assigned. -/
def Append [Inhabited E] (grow : Nat → Nat → Nat) (h : Heap E) (v : Vector E) (e : List E) :
    Heap E × Vector E :=
  ((Slice.append grow h v.Raw e).1, { Raw := (Slice.append grow h v.Raw e).2 })

/-- Method `func (v *Vector[E]) Push(e ...E)`: the heap and the receiver after the
call. -/
def Push [Inhabited E] (grow : Nat → Nat → Nat) (h : Heap E) (v : Vector E) (e : List E) :
    Heap E × Vector E :=
  ((Slice.append grow h v.Raw e).1, { Raw := (Slice.append grow h v.Raw e).2 })

/-- Method `func (v *Vector[E]) PopN(n int)`: the receiver after the call, or the
panic of the slice expression. -/
def PopN (v : Vector E) (n : Int) : Except Fault (Vector E) :=
  match Slice.sliceTo v.Raw (wrapInt64 ((v.Len : Int) - n)) with
  | .error f => .error f
  | .ok r => .ok { Raw := r }

/-- Method `func (v *Vector[E]) Pop()`. -/
def Pop (v : Vector E) : Except Fault (Vector E) :=
  match Slice.sliceTo v.Raw (wrapInt64 ((v.Len : Int) - 1)) with
  | .error f => .error f
  | .ok r => .ok { Raw := r }

end Vector

/-- The struct `ComparableVector[E comparable]`, which embeds `Vector[E]`. -/
structure ComparableVector (E : Type) where
  Vector : Vector E
  deriving DecidableEq, Repr

namespace ComparableVector

variable {E : Type}

/-- The body of `for _, each := range v.Raw { if each == e { return true } }; return false`. -/
def containsLoop [GoEq E] (e : E) : List E → Bool
  | [] => false
  | each :: rest => if GoEq.eq each e then true else containsLoop e rest

/-- Method `func (v *ComparableVector[E]) Contains(e E) bool`: the result and the
receiver after the call. -/
def Contains [GoEq E] (h : Heap E) (v : ComparableVector E) (e : E) :
    Bool × ComparableVector E :=
  (containsLoop e (v.Vector.Raw.elems h), v)

/-- The method `Len` promoted from the embedded `Vector`. -/
def Len (v : ComparableVector E) : Nat := v.Vector.Len

/-- The method `Push` promoted from the embedded `Vector`. -/
def Push [Inhabited E] (grow : Nat → Nat → Nat) (h : Heap E) (v : ComparableVector E)
    (e : List E) : Heap E × ComparableVector E :=
  ((v.Vector.Push grow h e).1, { Vector := (v.Vector.Push grow h e).2 })

/-- The method `PopN` promoted from the embedded `Vector`. -/
def PopN (v : ComparableVector E) (n : Int) : Except Fault (ComparableVector E) :=
  match v.Vector.PopN n with
  | .error f => .error f
  | .ok r => .ok { Vector := r }

/-- The method `Pop` promoted from the embedded `Vector`. -/
def Pop (v : ComparableVector E) : Except Fault (ComparableVector E) :=
  match v.Vector.Pop with
  | .error f => .error f
  | .ok r => .ok { Vector := r }

/-- The calls `Push(x); Pop(); Contains(x)` on `v`: the result of `Contains`. -/
def pushPop [Inhabited E] [GoEq E] (grow : Nat → Nat → Nat) (h : Heap E)
    (v : ComparableVector E) (x : E) : Except Fault Bool :=
  match (v.Push grow h [x]).2.Pop with
  | .error f => .error f
  | .ok v2 => .ok (v2.Contains (v.Push grow h [x]).1 x).1

/-- The calls `Push(x); Push(y); PopN(1); Contains(x); Contains(y)` on `v`: the
results of the two `Contains`. -/
def pushPushPopN [Inhabited E] [GoEq E] (grow : Nat → Nat → Nat) (h : Heap E)
    (v : ComparableVector E) (x y : E) : Except Fault (Bool × Bool) :=
  match ((v.Push grow h [x]).2.Push grow (v.Push grow h [x]).1 [y]).2.PopN 1 with
  | .error f => .error f
  | .ok v3 =>
    .ok ((v3.Contains ((v.Push grow h [x]).2.Push grow (v.Push grow h [x]).1 [y]).1 x).1,
         (v3.Contains ((v.Push grow h [x]).2.Push grow (v.Push grow h [x]).1 [y]).1 y).1)

end ComparableVector

/-- One call on a vector whose result, if any, is dropped: `Append(es...)` or
`Push(es...)`. -/
inductive VecOp (E : Type) where
  | append (es : List E)
  | push (es : List E)
  deriving DecidableEq, Repr

/-- The calls of a sequence applied to the receiver `v` one after the other:
the heap and the receiver after them. -/
def Vector.runOps {E : Type} [Inhabited E] (grow : Nat → Nat → Nat) :
    Heap E → Vector E → List (VecOp E) → Heap E × Vector E
  | h, v, [] => (h, v)
  | h, v, .append es :: ops => Vector.runOps grow (v.Append grow h es).1 v ops
  | h, v, .push es :: ops => Vector.runOps grow (v.Push grow h es).1 (v.Push grow h es).2 ops

/-- The calls `Push(x); Pop(); PopN(-1)` on `v`, then `Len()` and
`Contains(x)`: the results of the last two, or the first panic. -/
def ComparableVector.pushPopPopNeg {E : Type} [Inhabited E] [GoEq E]
    (grow : Nat → Nat → Nat) (h : Heap E) (v : ComparableVector E) (x : E) :
    Except Fault (Nat × Bool) :=
  ((v.Push grow h [x]).2.Pop).bind fun v2 =>
    (v2.PopN (-1)).bind fun v3 =>
      .ok (v3.Len, (v3.Contains (v.Push grow h [x]).1 x).1)

/-! ## Helpers on raw maps -/

/-- The body of `for _, v := range m { values[i] = v; i++ }` over the entries
in the order the runtime yields them: the assignment `values[i] = v` panics
when `i` is not below `len(values)`. -/
def valuesLoop {K V : Type} : List (K × V) → List V → Nat → Except Fault (List V)
  | [], values, _ => .ok values
  | (_, v) :: t, values, i =>
    if i < values.length then valuesLoop t (values.set i v) (i + 1) else .error .indexRange

/-- The function `func ValuesOfRawMap[K comparable, V any](m map[K]V) []V`: the
elements of the returned slice, which is made with length and capacity
`len(m)`. -/
def ValuesOfRawMap {K V : Type} [Inhabited V] (ro : RangeOrder (K × V)) (m : RawMap K V) :
    Except Fault (List V) :=
  valuesLoop (ro.order (RawMap.entries m)) (List.replicate (RawMap.len m) default) 0

/-- The body of `for k, v := range subset { set[k] = v }` over the entries in
the order the runtime yields them. -/
def mergeLoop {K V : Type} [GoEq K] : List (K × V) → RawMap K V → Except Fault (RawMap K V)
  | [], set => .ok set
  | (k, v) :: t, set =>
    match RawMap.assign set k v with
    | .error e => .error e
    | .ok set' => mergeLoop t set'

/-- The function `func MergeRawMap[K comparable, V any](set map[K]V, subset map[K]V)`:
the two maps after the call.  The function assigns to `set` only; the second
component is `subset` as it was, which is what the call leaves of it when
`set` and `subset` are two different maps. -/
def MergeRawMap {K V : Type} [GoEq K] (ro : RangeOrder (K × V))
    (set subset : RawMap K V) : Except Fault (RawMap K V × RawMap K V) :=
  match mergeLoop (ro.order (RawMap.entries subset)) set with
  | .error e => .error e
  | .ok set' => .ok (set', subset)

/-! ## The reader/writer lock and the guarded containers -/

/-- What happens on a guarded instance, in order: the calls on its lock and
the uses of the container it wraps. -/
inductive Event where
  | rlock
  | runlock
  | lock
  | unlock
  /-- The wrapped container is read. -/
  | read
  /-- The wrapped container is written. -/
  | write
  deriving DecidableEq, Repr

/-- The type `sync.RWMutex` of the Go library, after its documentation, as seen
by a run of one goroutine: the number of read locks held and whether the write
lock is held.  The field `history` is not in Go: it records the events of the
instance the lock belongs to. -/
structure RWMutex where
  readers : Nat
  writer : Bool
  history : List Event
  deriving DecidableEq, Repr

namespace RWMutex

/-- The lock is held by nobody. -/
def Free (mu : RWMutex) : Prop := mu.readers = 0 ∧ mu.writer = false

instance decidableFree (mu : RWMutex) : Decidable (Free mu) :=
  inferInstanceAs (Decidable (mu.readers = 0 ∧ mu.writer = false))

/-- Record an event in the history. -/
def note (mu : RWMutex) (e : Event) : RWMutex := { mu with history := mu.history ++ [e] }

/-- Go `mu.RLock()`: blocks while the write lock is held. -/
def RLock (mu : RWMutex) : Except Fault RWMutex :=
  if mu.writer then .error .deadlock
  else .ok { readers := mu.readers + 1, writer := mu.writer, history := mu.history ++ [.rlock] }

/-- Go `mu.RUnlock()`: a fatal error when no read lock is held. -/
def RUnlock (mu : RWMutex) : Except Fault RWMutex :=
  if mu.readers = 0 then .error .unlockOfUnlocked
  else .ok { readers := mu.readers - 1, writer := mu.writer, history := mu.history ++ [.runlock] }

/-- Go `mu.Lock()`: blocks while the lock is held for reading or writing. -/
def Lock (mu : RWMutex) : Except Fault RWMutex :=
  if mu.writer ∨ mu.readers ≠ 0 then .error .deadlock
  else .ok { readers := mu.readers, writer := true, history := mu.history ++ [.lock] }

/-- Go `mu.Unlock()`: a fatal error when the write lock is not held. -/
def Unlock (mu : RWMutex) : Except Fault RWMutex :=
  if mu.writer then
    .ok { readers := mu.readers, writer := false, history := mu.history ++ [.unlock] }
  else .error .unlockOfUnlocked

end RWMutex

/-- Replay of a history from the lock state with `r` read locks held and the
write lock held or not (`w`): true when every read of the container happens
while the lock is held, and every write while the write lock is held. -/
def guardedFrom : Nat → Bool → List Event → Bool
  | _, _, [] => true
  | r, w, .rlock :: t => guardedFrom (r + 1) w t
  | r, w, .runlock :: t => guardedFrom (r - 1) w t
  | r, _, .lock :: t => guardedFrom r true t
  | r, _, .unlock :: t => guardedFrom r false t
  | r, w, .read :: t => (decide (0 < r) || w) && guardedFrom r w t
  | r, w, .write :: t => w && guardedFrom r w t

/-- In the words of the specification: in a history that starts with the lock
free, the wrapped container is read or written only while the lock is held in
the appropriate mode. -/
def Guarded (history : List Event) : Prop := guardedFrom 0 false history = true

instance decidableGuarded (history : List Event) : Decidable (Guarded history) :=
  inferInstanceAs (Decidable (guardedFrom 0 false history = true))

/-- SyncMap provides Map with RW-mutex protected. -/
structure SyncMap (K V : Type) where
  It : Map K V
  RWMutex : RWMutex

namespace SyncMap

variable {K V : Type}

/-- Method `func (s *SyncMap[K, V]) Do(f func(it *Map[K, V]))`: the callback is
a function of the wrapped map and of a state of its own. -/
def Do {σ : Type} (s : SyncMap K V) (f : Map K V → σ → Map K V × σ) (c : σ) :
    Except Fault (SyncMap K V × σ) :=
  s.RWMutex.RLock.bind fun mu1 =>
    ((mu1.note .read).RUnlock).bind fun mu2 =>
      .ok ({ It := (f s.It c).1, RWMutex := mu2 }, (f s.It c).2)

/-- Method `func (s *SyncMap[K, V]) Get(k K) (V, bool)`. -/
def Get [GoEq K] [Inhabited V] (s : SyncMap K V) (k : K) :
    Except Fault ((V × Bool) × SyncMap K V) :=
  s.RWMutex.RLock.bind fun mu1 =>
    ((mu1.note .read).RUnlock).bind fun mu2 =>
      .ok (s.It.Get k, { It := s.It, RWMutex := mu2 })

/-- Method `func (s *SyncMap[K, V]) Foreach(f func(K, V) error) error`: the
instance and the state of the visitor after the call, and the returned
error. -/
def Foreach {σ ε : Type} (ro : RangeOrder (K × V)) (s : SyncMap K V)
    (f : K → V → σ → σ × Option ε) (c : σ) : Except Fault (SyncMap K V × σ × Option ε) :=
  s.RWMutex.RLock.bind fun mu1 =>
    ((mu1.note .read).RUnlock).bind fun mu2 =>
      .ok ({ It := (s.It.Foreach ro f c).1, RWMutex := mu2 }, (s.It.Foreach ro f c).2)

/-- Method `func (s *SyncMap[K, V]) DoMut(f func(it *Map[K, V]))`. -/
def DoMut {σ : Type} (s : SyncMap K V) (f : Map K V → σ → Map K V × σ) (c : σ) :
    Except Fault (SyncMap K V × σ) :=
  s.RWMutex.Lock.bind fun mu1 =>
    ((mu1.note .write).Unlock).bind fun mu2 =>
      .ok ({ It := (f s.It c).1, RWMutex := mu2 }, (f s.It c).2)

/-- Method `func (s *SyncMap[K, V]) Delete(k K)`. -/
def Delete [GoEq K] (s : SyncMap K V) (k : K) : Except Fault (SyncMap K V) :=
  s.RWMutex.Lock.bind fun mu1 =>
    ((mu1.note .write).Unlock).bind fun mu2 =>
      .ok { It := s.It.Delete k, RWMutex := mu2 }

/-- Method `func (s *SyncMap[K, V]) Set(k K, v V)`: a panic of the wrapped
`Set` goes on after the deferred unlock. -/
def Set [GoEq K] (s : SyncMap K V) (k : K) (v : V) : Except Fault (SyncMap K V) :=
  s.RWMutex.Lock.bind fun mu1 =>
    (s.It.Set k v).bind fun m =>
      ((mu1.note .write).Unlock).bind fun mu2 =>
        .ok { It := m, RWMutex := mu2 }

end SyncMap

/-- SyncVector provides Vector with RW-mutex protected. -/
structure SyncVector (E : Type) where
  It : Vector E
  RWMutex : RWMutex

namespace SyncVector

variable {E : Type}

/-- Method `func (v *SyncVector[E]) Do(f func(it *Vector[E]))`: Do locks
R-mutex during execution.  The callback is a function of the heap, of the
wrapped vector and of a state of its own. -/
def Do {σ : Type} (h : Heap E) (v : SyncVector E)
    (f : Heap E → Vector E → σ → Heap E × Vector E × σ) (c : σ) :
    Except Fault (Heap E × SyncVector E × σ) :=
  v.RWMutex.RLock.bind fun mu1 =>
    ((mu1.note .read).RUnlock).bind fun mu2 =>
      .ok ((f h v.It c).1, { It := (f h v.It c).2.1, RWMutex := mu2 }, (f h v.It c).2.2)

/-- Method `func (v *SyncVector[E]) Append(e ...E) Vector[E]`: the heap after
the call, the returned vector and the instance after the call. -/
def Append [Inhabited E] (grow : Nat → Nat → Nat) (h : Heap E) (v : SyncVector E)
    (e : List E) : Except Fault (Heap E × Vector E × SyncVector E) :=
  v.RWMutex.RLock.bind fun mu1 =>
    ((mu1.note .read).RUnlock).bind fun mu2 =>
      .ok ((v.It.Append grow h e).1, (v.It.Append grow h e).2, { It := v.It, RWMutex := mu2 })

/-- Method `func (v *SyncVector[E]) DoMut(f func(it *Vector[E]))`: DoMut locks
W-mutex during execution. -/
def DoMut {σ : Type} (h : Heap E) (v : SyncVector E)
    (f : Heap E → Vector E → σ → Heap E × Vector E × σ) (c : σ) :
    Except Fault (Heap E × SyncVector E × σ) :=
  v.RWMutex.Lock.bind fun mu1 =>
    ((mu1.note .write).Unlock).bind fun mu2 =>
      .ok ((f h v.It c).1, { It := (f h v.It c).2.1, RWMutex := mu2 }, (f h v.It c).2.2)

/-- Method `func (v *SyncVector[E]) Push(e ...E)`. -/
def Push [Inhabited E] (grow : Nat → Nat → Nat) (h : Heap E) (v : SyncVector E)
    (e : List E) : Except Fault (Heap E × SyncVector E) :=
  v.RWMutex.Lock.bind fun mu1 =>
    ((mu1.note .write).Unlock).bind fun mu2 =>
      .ok ((v.It.Push grow h e).1, { It := (v.It.Push grow h e).2, RWMutex := mu2 })

end SyncVector

/-- The struct `SyncComparableVector[E comparable]`, which embeds
`ComparableVector[E]` next to the field `lock`. -/
structure SyncComparableVector (E : Type) where
  ComparableVector : ComparableVector E
  lock : RWMutex

namespace SyncComparableVector

variable {E : Type}

/-- Method `func (a *SyncComparableVector[E]) Contains(e E) bool`. -/
def Contains [GoEq E] (h : Heap E) (a : SyncComparableVector E) (e : E) :
    Except Fault (Bool × SyncComparableVector E) :=
  a.lock.RLock.bind fun mu1 =>
    ((mu1.note .read).RUnlock).bind fun mu2 =>
      .ok ((a.ComparableVector.Contains h e).1,
        { ComparableVector := (a.ComparableVector.Contains h e).2, lock := mu2 })

/-- The method `Len` promoted from the embedded `ComparableVector`: no call on
the lock is made. -/
def Len (a : SyncComparableVector E) : Nat × SyncComparableVector E :=
  (a.ComparableVector.Len, { a with lock := a.lock.note .read })

/-- The method `Cap` promoted from the embedded `ComparableVector`. -/
def Cap (a : SyncComparableVector E) : Nat × SyncComparableVector E :=
  (a.ComparableVector.Vector.Cap, { a with lock := a.lock.note .read })

/-- The method `Append` promoted from the embedded `ComparableVector`. -/
def Append [Inhabited E] (grow : Nat → Nat → Nat) (h : Heap E) (a : SyncComparableVector E)
    (e : List E) : Heap E × Vector E × SyncComparableVector E :=
  ((a.ComparableVector.Vector.Append grow h e).1, (a.ComparableVector.Vector.Append grow h e).2,
    { a with lock := a.lock.note .read })

/-- The method `Push` promoted from the embedded `ComparableVector`. -/
def Push [Inhabited E] (grow : Nat → Nat → Nat) (h : Heap E) (a : SyncComparableVector E)
    (e : List E) : Heap E × SyncComparableVector E :=
  ((a.ComparableVector.Push grow h e).1,
    { ComparableVector := (a.ComparableVector.Push grow h e).2, lock := a.lock.note .write })

/-- The method `PopN` promoted from the embedded `ComparableVector`. -/
def PopN (a : SyncComparableVector E) (n : Int) : Except Fault (SyncComparableVector E) :=
  (a.ComparableVector.PopN n).bind fun c =>
    .ok { ComparableVector := c, lock := a.lock.note .write }

/-- The method `Pop` promoted from the embedded `ComparableVector`. -/
def Pop (a : SyncComparableVector E) : Except Fault (SyncComparableVector E) :=
  (a.ComparableVector.Pop).bind fun c =>
    .ok { ComparableVector := c, lock := a.lock.note .write }

end SyncComparableVector

/-! ## Lemmas on tables -/

namespace RawMap

variable {K V : Type}

/-- Two keys equal to a third are equal. -/
theorem eq_of_eq_right [GoEq K] {a b c : K} (h1 : GoEq.eq a c = true) (h2 : GoEq.eq b c = true) :
    GoEq.eq a b = true :=
  GoEq.trans a c b h1 (GoEq.symm b c h2)

/-- A key equal to another one is equal to itself. -/
theorem eq_self_of_eq [GoEq K] {a b : K} (h : GoEq.eq a b = true) : GoEq.eq b b = true :=
  GoEq.trans b a b (GoEq.symm a b h) h

theorem find_eq_findEntry [GoEq K] (k : K) (l : List (K × V)) :
    find k l = (findEntry k l).map Prod.snd := by
  induction l with
  | nil => rfl
  | cons p t ih =>
    obtain ⟨k1, v1⟩ := p
    by_cases h : GoEq.eq k1 k = true
    · simp [find, findEntry, h]
    · simp [find, findEntry, h, ih]

theorem findEntry_insert_eq [GoEq K] {k k' : K} (h : GoEq.eq k' k = true) (v : V)
    (l : List (K × V)) : findEntry k (insert k' v l) = some (k', v) := by
  induction l with
  | nil => simp [insert, findEntry, h]
  | cons p t ih =>
    obtain ⟨k1, v1⟩ := p
    by_cases h1 : GoEq.eq k1 k' = true
    · simp [insert, findEntry, h1, h]
    · have h2 : ¬ GoEq.eq k1 k = true := fun h2 => h1 (eq_of_eq_right h2 h)
      simp [insert, findEntry, h1, h2, ih]

theorem findEntry_insert_ne [GoEq K] {k k' : K} (h : GoEq.eq k' k = false) (v : V)
    (l : List (K × V)) : findEntry k (insert k' v l) = findEntry k l := by
  induction l with
  | nil => simp [insert, findEntry, h]
  | cons p t ih =>
    obtain ⟨k1, v1⟩ := p
    by_cases h1 : GoEq.eq k1 k' = true
    · have h2 : ¬ GoEq.eq k1 k = true := by
        intro h2
        have := GoEq.trans k' k1 k (GoEq.symm k1 k' h1) h2
        rw [h] at this
        cases this
      simp [insert, findEntry, h1, h2, h]
    · by_cases h2 : GoEq.eq k1 k = true
      · simp [insert, findEntry, h1, h2]
      · simp [insert, findEntry, h1, h2, ih]

theorem findEntry_remove_eq [GoEq K] {k k' : K} (h : GoEq.eq k' k = true)
    (l : List (K × V)) : findEntry k (remove k' l) = none := by
  induction l with
  | nil => simp [remove, findEntry]
  | cons p t ih =>
    obtain ⟨k1, v1⟩ := p
    by_cases h1 : GoEq.eq k1 k' = true
    · simp [remove, h1, ih]
    · have h2 : ¬ GoEq.eq k1 k = true := fun h2 => h1 (eq_of_eq_right h2 h)
      simp [remove, findEntry, h1, h2, ih]

theorem findEntry_remove_ne [GoEq K] {k k' : K} (h : GoEq.eq k' k = false)
    (l : List (K × V)) : findEntry k (remove k' l) = findEntry k l := by
  induction l with
  | nil => simp [remove, findEntry]
  | cons p t ih =>
    obtain ⟨k1, v1⟩ := p
    by_cases h1 : GoEq.eq k1 k' = true
    · have h2 : ¬ GoEq.eq k1 k = true := by
        intro h2
        have := GoEq.trans k' k1 k (GoEq.symm k1 k' h1) h2
        rw [h] at this
        cases this
      simp [remove, findEntry, h1, h2, ih]
    · by_cases h2 : GoEq.eq k1 k = true
      · simp [remove, findEntry, h1, h2]
      · simp [remove, findEntry, h1, h2, ih]

theorem find_insert_eq [GoEq K] {k k' : K} (h : GoEq.eq k' k = true) (v : V)
    (l : List (K × V)) : find k (insert k' v l) = some v := by
  rw [find_eq_findEntry, findEntry_insert_eq h]
  rfl

theorem find_insert_ne [GoEq K] {k k' : K} (h : GoEq.eq k' k = false) (v : V)
    (l : List (K × V)) : find k (insert k' v l) = find k l := by
  rw [find_eq_findEntry, findEntry_insert_ne h, find_eq_findEntry]

theorem find_remove_eq [GoEq K] {k k' : K} (h : GoEq.eq k' k = true)
    (l : List (K × V)) : find k (remove k' l) = none := by
  rw [find_eq_findEntry, findEntry_remove_eq h]
  rfl

theorem find_remove_ne [GoEq K] {k k' : K} (h : GoEq.eq k' k = false)
    (l : List (K × V)) : find k (remove k' l) = find k l := by
  rw [find_eq_findEntry, findEntry_remove_ne h, find_eq_findEntry]

theorem find_eq_none_iff [GoEq K] (k : K) (l : List (K × V)) :
    find k l = none ↔ ∀ k' ∈ l.map Prod.fst, GoEq.eq k' k = false := by
  induction l with
  | nil => simp [find]
  | cons p t ih =>
    obtain ⟨k1, v1⟩ := p
    cases h1 : GoEq.eq k1 k with
    | true => simp [find, h1]
    | false => simp [find, h1, ih]

theorem length_insert_of_none [GoEq K] (k : K) (v : V) (l : List (K × V))
    (h : find k l = none) : (insert k v l).length = l.length + 1 := by
  induction l with
  | nil => simp [insert]
  | cons p t ih =>
    obtain ⟨k1, v1⟩ := p
    by_cases h1 : GoEq.eq k1 k = true
    · simp [find, h1] at h
    · simp only [find, h1, if_false] at h
      simp [insert, h1, ih h]

theorem length_insert_of_some [GoEq K] (k : K) (v : V) (l : List (K × V))
    (h : find k l ≠ none) : (insert k v l).length = l.length := by
  induction l with
  | nil => simp [find] at h
  | cons p t ih =>
    obtain ⟨k1, v1⟩ := p
    by_cases h1 : GoEq.eq k1 k = true
    · simp [insert, h1]
    · simp only [find, h1, if_false] at h
      simp [insert, h1, ih h]

theorem keys_insert_of_none [GoEq K] (k : K) (v : V) (l : List (K × V))
    (h : find k l = none) : (insert k v l).map Prod.fst = l.map Prod.fst ++ [k] := by
  induction l with
  | nil => simp [insert]
  | cons p t ih =>
    obtain ⟨k1, v1⟩ := p
    by_cases h1 : GoEq.eq k1 k = true
    · simp [find, h1] at h
    · simp only [find, h1, if_false] at h
      simp [insert, h1, ih h]

theorem mem_keys_insert [GoEq K] (k : K) (v : V) (l : List (K × V)) (k2 : K)
    (h : k2 ∈ (insert k v l).map Prod.fst) : k2 = k ∨ k2 ∈ l.map Prod.fst := by
  induction l with
  | nil =>
    simp only [insert, List.map_cons, List.map_nil, List.mem_singleton] at h
    exact Or.inl h
  | cons p t ih =>
    obtain ⟨k1, v1⟩ := p
    cases h1 : GoEq.eq k1 k with
    | true =>
      simp only [insert, h1, if_true, List.map_cons, List.mem_cons] at h
      rcases h with h | h
      · exact Or.inl h
      · exact Or.inr (List.mem_cons_of_mem _ h)
    | false =>
      simp only [insert, h1, Bool.false_eq_true, if_false, List.map_cons, List.mem_cons] at h
      rcases h with h | h
      · exact Or.inr (h ▸ List.mem_cons_self _ _)
      · rcases ih h with h2 | h2
        · exact Or.inl h2
        · exact Or.inr (List.mem_cons_of_mem _ h2)

/-- The assignment `m[k] = v` keeps the keys unique. -/
theorem insert_WF [GoEq K] (k : K) (v : V) (l : List (K × V))
    (h : (l.map Prod.fst).Pairwise (fun a b => GoEq.eq a b = false)) :
    ((insert k v l).map Prod.fst).Pairwise (fun a b => GoEq.eq a b = false) := by
  induction l with
  | nil => simp [insert]
  | cons p t ih =>
    obtain ⟨k1, v1⟩ := p
    simp only [List.map_cons, List.pairwise_cons] at h
    cases h1 : GoEq.eq k1 k with
    | true =>
      simp only [insert, h1, if_true, List.map_cons, List.pairwise_cons]
      refine ⟨?_, h.2⟩
      intro k2 hk2
      cases h3 : GoEq.eq k k2 with
      | false => rfl
      | true =>
        have := GoEq.trans k1 k k2 h1 h3
        rw [h.1 k2 hk2] at this
        cases this
    | false =>
      simp only [insert, h1, Bool.false_eq_true, if_false, List.map_cons, List.pairwise_cons]
      refine ⟨?_, ih h.2⟩
      intro k2 hk2
      rcases mem_keys_insert k v t k2 hk2 with h2 | h2
      · rw [h2]
        exact h1
      · exact h.1 k2 h2

theorem remove_sublist [GoEq K] (k : K) (l : List (K × V)) :
    (remove k l).Sublist l := by
  induction l with
  | nil => simp [remove]
  | cons p t ih =>
    obtain ⟨k1, v1⟩ := p
    by_cases h1 : GoEq.eq k1 k = true
    · simp only [remove, h1, if_true]
      exact List.Sublist.cons _ ih
    · simp only [remove, h1, if_false]
      exact List.Sublist.cons₂ _ ih

/-- The call `delete(m, k)` keeps the keys unique. -/
theorem remove_WF [GoEq K] (k : K) (l : List (K × V))
    (h : (l.map Prod.fst).Pairwise (fun a b => GoEq.eq a b = false)) :
    ((remove k l).map Prod.fst).Pairwise (fun a b => GoEq.eq a b = false) :=
  List.Pairwise.sublist (List.Sublist.map Prod.fst (remove_sublist k l)) h

theorem remove_of_none [GoEq K] (k : K) (l : List (K × V)) (h : find k l = none) :
    remove k l = l := by
  induction l with
  | nil => simp [remove]
  | cons p t ih =>
    obtain ⟨k1, v1⟩ := p
    by_cases h1 : GoEq.eq k1 k = true
    · simp [find, h1] at h
    · simp only [find, h1, if_false] at h
      simp [remove, h1, ih h]

theorem find_tail_none_of_head [GoEq K] {k k1 : K} {t : List (K × V)}
    (h1 : GoEq.eq k1 k = true) (hp : ∀ k2 ∈ t.map Prod.fst, GoEq.eq k1 k2 = false) :
    find k t = none := by
  rw [find_eq_none_iff]
  intro k2 hk2
  cases h3 : GoEq.eq k2 k with
  | false => rfl
  | true =>
    have := eq_of_eq_right h1 h3
    rw [hp k2 hk2] at this
    cases this

theorem length_remove_of_some [GoEq K] (k : K) (l : List (K × V))
    (hn : (l.map Prod.fst).Pairwise (fun a b => GoEq.eq a b = false)) (h : find k l ≠ none) :
    (remove k l).length + 1 = l.length := by
  induction l with
  | nil => simp [find] at h
  | cons p t ih =>
    obtain ⟨k1, v1⟩ := p
    simp only [List.map_cons, List.pairwise_cons] at hn
    by_cases h1 : GoEq.eq k1 k = true
    · have := remove_of_none k t (find_tail_none_of_head h1 hn.1)
      simp [remove, h1, this]
    · simp only [find, h1, if_false] at h
      simp [remove, h1, ih hn.2 h]

theorem findEntry_eq_some_iff [GoEq K] (k : K) (p : K × V) (l : List (K × V))
    (hn : (l.map Prod.fst).Pairwise (fun a b => GoEq.eq a b = false)) :
    findEntry k l = some p ↔ p ∈ l ∧ GoEq.eq p.1 k = true := by
  induction l with
  | nil => simp [findEntry]
  | cons q t ih =>
    obtain ⟨k1, v1⟩ := q
    simp only [List.map_cons, List.pairwise_cons] at hn
    cases h1 : GoEq.eq k1 k with
    | true =>
      simp only [findEntry, h1, if_true, Option.some.injEq, List.mem_cons]
      constructor
      · intro h
        rw [← h]
        exact ⟨Or.inl rfl, h1⟩
      · rintro ⟨h | h, h2⟩
        · exact h.symm
        · have := eq_of_eq_right h1 h2
          rw [hn.1 p.1 (List.mem_map_of_mem Prod.fst h)] at this
          cases this
    | false =>
      simp only [findEntry, h1, Bool.false_eq_true, if_false, ih hn.2, List.mem_cons]
      constructor
      · rintro ⟨h, h2⟩
        exact ⟨Or.inr h, h2⟩
      · rintro ⟨h | h, h2⟩
        · rw [h] at h2
          rw [h1] at h2
          cases h2
        · exact ⟨h, h2⟩

theorem pairwise_perm [GoEq K] {l1 l2 : List K} (hp : l1.Perm l2)
    (hn : l2.Pairwise (fun a b => GoEq.eq a b = false)) :
    l1.Pairwise (fun a b => GoEq.eq a b = false) := by
  refine (List.Perm.pairwise_iff ?_ hp).2 hn
  intro a b hab
  cases h : GoEq.eq b a with
  | false => rfl
  | true =>
    have := GoEq.symm b a h
    rw [hab] at this
    cases this

theorem findEntry_perm [GoEq K] (k : K) {l1 l2 : List (K × V)} (hp : l1.Perm l2)
    (hn : (l2.map Prod.fst).Pairwise (fun a b => GoEq.eq a b = false)) :
    findEntry k l1 = findEntry k l2 := by
  have hn1 := pairwise_perm (hp.map Prod.fst) hn
  cases h2 : findEntry k l2 with
  | some p =>
    obtain ⟨hm, he⟩ := (findEntry_eq_some_iff k p l2 hn).1 h2
    exact (findEntry_eq_some_iff k p l1 hn1).2 ⟨hp.mem_iff.2 hm, he⟩
  | none =>
    cases h1 : findEntry k l1 with
    | none => rfl
    | some p =>
      obtain ⟨hm, he⟩ := (findEntry_eq_some_iff k p l1 hn1).1 h1
      have := (findEntry_eq_some_iff k p l2 hn).2 ⟨hp.mem_iff.1 hm, he⟩
      rw [h2] at this
      cases this

theorem find_perm [GoEq K] (k : K) {l1 l2 : List (K × V)} (hp : l1.Perm l2)
    (hn : (l2.map Prod.fst).Pairwise (fun a b => GoEq.eq a b = false)) :
    find k l1 = find k l2 := by
  rw [find_eq_findEntry, find_eq_findEntry, findEntry_perm k hp hn]

theorem insert_of_findEntry [GoEq K] (k : K) (v : V) (l : List (K × V))
    (h : findEntry k l = some (k, v)) : insert k v l = l := by
  induction l with
  | nil => simp [findEntry] at h
  | cons p t ih =>
    obtain ⟨k1, v1⟩ := p
    cases h1 : GoEq.eq k1 k with
    | true =>
      simp only [findEntry, h1, if_true, Option.some.injEq, Prod.mk.injEq] at h
      obtain ⟨hk, hv⟩ := h
      subst hk
      subst hv
      simp only [insert, h1, if_true]
    | false =>
      simp only [findEntry, h1, Bool.false_eq_true, if_false] at h
      simp only [insert, h1, Bool.false_eq_true, if_false, ih h]

end RawMap

/-! ## Lemmas on `Map` -/

namespace Map

variable {K V : Type}

/-- The guard of `Set` makes the assignment safe: `Set` never panics. -/
theorem Set_eq [GoEq K] (m : Map K V) (k : K) (v : V) :
    m.Set k v = .ok { Raw := some (RawMap.insert k v (RawMap.entries m.Raw)) } := by
  obtain ⟨r⟩ := m
  cases r <;> rfl

theorem entries_Delete [GoEq K] (m : Map K V) (k : K) :
    RawMap.entries (m.Delete k).Raw = RawMap.remove k (RawMap.entries m.Raw) := by
  obtain ⟨r⟩ := m
  cases r <;> rfl

theorem Get_eq [GoEq K] [Inhabited V] (m : Map K V) (k : K) :
    m.Get k = match RawMap.find k (RawMap.entries m.Raw) with
      | some v => (v, true)
      | none => (default, false) := rfl

theorem Get_snd_eq_false_iff [GoEq K] [Inhabited V] (m : Map K V) (k : K) :
    (m.Get k).2 = false ↔ RawMap.find k (RawMap.entries m.Raw) = none := by
  rw [Get_eq]
  cases RawMap.find k (RawMap.entries m.Raw) <;> simp

theorem Get_snd_eq_true_iff [GoEq K] [Inhabited V] (m : Map K V) (k : K) :
    (m.Get k).2 = true ↔ RawMap.find k (RawMap.entries m.Raw) ≠ none := by
  rw [Get_eq]
  cases RawMap.find k (RawMap.entries m.Raw) <;> simp

theorem run_total [GoEq K] (ops : List (MapOp K V)) :
    ∀ m : Map K V, ∃ m', m.run ops = .ok m' := by
  induction ops with
  | nil => exact fun m => ⟨m, rfl⟩
  | cons op t ih =>
    intro m
    cases op with
    | set k v =>
      simp only [run, Set_eq]
      exact ih _
    | delete k =>
      simp only [run]
      exact ih _

theorem find_run [GoEq K] (k : K) (ops : List (MapOp K V)) :
    ∀ m m' : Map K V, m.run ops = .ok m' →
      RawMap.find k (RawMap.entries m'.Raw) = liveFrom k (RawMap.find k (RawMap.entries m.Raw)) ops := by
  induction ops with
  | nil =>
    intro m m' h
    simp only [run, Except.ok.injEq] at h
    subst h
    rfl
  | cons op t ih =>
    intro m m' h
    cases op with
    | set k' v =>
      simp only [run, Set_eq] at h
      rw [ih _ _ h, liveFrom]
      congr 1
      cases hk : GoEq.eq k' k with
      | true => simp [RawMap.entries, RawMap.find_insert_eq hk]
      | false => simp [RawMap.entries, RawMap.find_insert_ne hk]
    | delete k' =>
      simp only [run] at h
      rw [ih _ _ h, liveFrom]
      congr 1
      rw [entries_Delete]
      cases hk : GoEq.eq k' k with
      | true => simp [RawMap.find_remove_eq hk]
      | false => simp [RawMap.find_remove_ne hk]

theorem liveFrom_append [GoEq K] (k : K) (pre post : List (MapOp K V)) :
    ∀ acc : Option V, liveFrom k acc (pre ++ post) = liveFrom k (liveFrom k acc pre) post := by
  induction pre with
  | nil => intro acc; rfl
  | cons op t ih =>
    intro acc
    cases op <;> exact ih _

theorem liveFrom_untouched [GoEq K] (k : K) (post : List (MapOp K V))
    (hs : ∀ k'' v', MapOp.set k'' v' ∈ post → GoEq.eq k'' k = false)
    (hd : ∀ k'', MapOp.delete k'' ∈ post → GoEq.eq k'' k = false) :
    ∀ acc : Option V, liveFrom k acc post = acc := by
  induction post with
  | nil => intro acc; rfl
  | cons op t ih =>
    intro acc
    have hs' : ∀ k'' v', MapOp.set k'' v' ∈ t → GoEq.eq k'' k = false :=
      fun k'' v' h => hs k'' v' (List.mem_cons_of_mem _ h)
    have hd' : ∀ k'', MapOp.delete k'' ∈ t → GoEq.eq k'' k = false :=
      fun k'' h => hd k'' (List.mem_cons_of_mem _ h)
    cases op with
    | set k' v =>
      have hk : GoEq.eq k' k = false := hs k' v (List.mem_cons_self _ _)
      simp only [liveFrom, hk, Bool.false_eq_true, if_false, ih hs' hd']
    | delete k' =>
      have hk : GoEq.eq k' k = false := hd k' (List.mem_cons_self _ _)
      simp only [liveFrom, hk, Bool.false_eq_true, if_false, ih hs' hd']

theorem liveFrom_of_liveSet [GoEq K] {k : K} {v : V} {ops : List (MapOp K V)}
    (h : LiveSet ops k v) (acc : Option V) : liveFrom k acc ops = some v := by
  obtain ⟨pre, post, k', rfl, hk, hs, hd⟩ := h
  rw [liveFrom_append, liveFrom, if_pos hk, liveFrom_untouched k post hs hd]

theorem liveSet_of_liveFrom [GoEq K] (k : K) (v : V) (ops : List (MapOp K V)) :
    ∀ acc : Option V, liveFrom k acc ops = some v →
      LiveSet ops k v ∨
        (acc = some v ∧ (∀ k'' v', MapOp.set k'' v' ∈ ops → GoEq.eq k'' k = false) ∧
          (∀ k'', MapOp.delete k'' ∈ ops → GoEq.eq k'' k = false)) := by
  induction ops with
  | nil =>
    intro acc h
    exact Or.inr ⟨h, by simp, by simp⟩
  | cons op t ih =>
    intro acc h
    have lift : LiveSet t k v → LiveSet (op :: t) k v := by
      rintro ⟨pre, post, k', rfl, hk, hs, hd⟩
      exact ⟨op :: pre, post, k', rfl, hk, hs, hd⟩
    cases op with
    | set k' v0 =>
      simp only [liveFrom] at h
      rcases ih _ h with h1 | ⟨h1, hs, hd⟩
      · exact Or.inl (lift h1)
      · cases hk : GoEq.eq k' k with
        | true =>
          simp only [hk, if_true, Option.some.injEq] at h1
          subst h1
          exact Or.inl ⟨[], t, k', rfl, hk, hs, hd⟩
        | false =>
          simp only [hk, Bool.false_eq_true, if_false] at h1
          refine Or.inr ⟨h1, ?_, ?_⟩
          · intro k'' v' hm
            rcases List.mem_cons.1 hm with e | e
            · injection e with e1 _
              rw [e1]
              exact hk
            · exact hs k'' v' e
          · intro k'' hm
            rcases List.mem_cons.1 hm with e | e
            · cases e
            · exact hd k'' e
    | delete k' =>
      simp only [liveFrom] at h
      rcases ih _ h with h1 | ⟨h1, hs, hd⟩
      · exact Or.inl (lift h1)
      · cases hk : GoEq.eq k' k with
        | true => simp [hk] at h1
        | false =>
          simp only [hk, Bool.false_eq_true, if_false] at h1
          refine Or.inr ⟨h1, ?_, ?_⟩
          · intro k'' v' hm
            rcases List.mem_cons.1 hm with e | e
            · cases e
            · exact hs k'' v' e
          · intro k'' hm
            rcases List.mem_cons.1 hm with e | e
            · injection e with e1
              rw [e1]
              exact hk
            · exact hd k'' e

theorem Len_Set_of_some [GoEq K] (m : Map K V) (k : K) (v : V)
    (h : RawMap.find k (RawMap.entries m.Raw) ≠ none) :
    (Map.mk (some (RawMap.insert k v (RawMap.entries m.Raw))) : Map K V).Len = m.Len :=
  RawMap.length_insert_of_some k v _ h

theorem Len_Set_of_none [GoEq K] (m : Map K V) (k : K) (v : V)
    (h : RawMap.find k (RawMap.entries m.Raw) = none) :
    (Map.mk (some (RawMap.insert k v (RawMap.entries m.Raw))) : Map K V).Len = m.Len + 1 :=
  RawMap.length_insert_of_none k v _ h

theorem Len_run_sets [GoEq K] (kvs : List (K × V)) :
    ∀ m : Map K V, (kvs.map Prod.fst).Pairwise (fun a b => GoEq.eq a b = false) →
      (∀ k ∈ kvs.map Prod.fst, RawMap.find k (RawMap.entries m.Raw) = none) →
      ∃ m', m.run (kvs.map (fun p => MapOp.set p.1 p.2)) = .ok m' ∧
        m'.Len = m.Len + kvs.length := by
  induction kvs with
  | nil => exact fun m _ _ => ⟨m, rfl, rfl⟩
  | cons p t ih =>
    intro m hn hd
    obtain ⟨k, v⟩ := p
    simp only [List.map_cons, List.pairwise_cons] at hn
    have hk : RawMap.find k (RawMap.entries m.Raw) = none := hd k (by simp)
    have hd' : ∀ k' ∈ t.map Prod.fst,
        RawMap.find k' (RawMap.entries (Map.mk (some (RawMap.insert k v (RawMap.entries m.Raw))) :
          Map K V).Raw) = none := by
      intro k' hk'
      show RawMap.find k' (RawMap.insert k v (RawMap.entries m.Raw)) = none
      rw [RawMap.find_insert_ne (hn.1 k' hk')]
      exact hd k' (List.mem_cons_of_mem _ hk')
    obtain ⟨m', hrun, hlen⟩ := ih _ hn.2 hd'
    refine ⟨m', ?_, ?_⟩
    · simp only [List.map_cons, run, Set_eq]
      exact hrun
    · rw [hlen, Len_Set_of_none m k v hk, List.length_cons]
      omega

theorem foreachLoop_traced {σ ε : Type} (f : K → V → σ → σ × Option ε) (l : List (K × V)) :
    ∀ (s : σ) (log : List ((K × V) × Option ε)),
      foreachLoop (traced f) l (s, log) =
        (((foreachLoop f l s).1, log ++ calls f l s), (foreachLoop f l s).2) := by
  induction l with
  | nil => intro s log; simp [foreachLoop, calls]
  | cons p t ih =>
    intro s log
    obtain ⟨k, v⟩ := p
    cases hf : f k v s with
    | mk s' r =>
      cases r with
      | none => simp [foreachLoop, calls, traced, hf, ih]
      | some e => simp [foreachLoop, calls, traced, hf]

theorem calls_of_ok {σ ε : Type} (f : K → V → σ → σ × Option ε) (l : List (K × V)) :
    ∀ s : σ, (foreachLoop f l s).2 = none →
      (calls f l s).map Prod.fst = l ∧ ∀ c ∈ calls f l s, c.2 = none := by
  induction l with
  | nil => intro s _; simp [calls]
  | cons p t ih =>
    intro s h
    obtain ⟨k, v⟩ := p
    cases hf : f k v s with
    | mk s' r =>
      cases r with
      | none =>
        simp only [foreachLoop, hf] at h
        obtain ⟨h1, h2⟩ := ih s' h
        simp only [calls, hf, List.map_cons, h1, List.mem_cons, true_and]
        rintro c (rfl | hc)
        · rfl
        · exact h2 c hc
      | some e => simp [foreachLoop, hf] at h

theorem calls_of_error {σ ε : Type} (f : K → V → σ → σ × Option ε) (l : List (K × V)) :
    ∀ (s : σ) (e : ε), (foreachLoop f l s).2 = some e →
      ∃ pre kv, calls f l s = pre ++ [(kv, some e)] ∧ ∀ c ∈ pre, c.2 = none := by
  induction l with
  | nil => intro s e h; simp [foreachLoop] at h
  | cons p t ih =>
    intro s e h
    obtain ⟨k, v⟩ := p
    cases hf : f k v s with
    | mk s' r =>
      cases r with
      | none =>
        simp only [foreachLoop, hf] at h
        obtain ⟨pre, kv, h1, h2⟩ := ih s' e h
        refine ⟨((k, v), none) :: pre, kv, ?_, ?_⟩
        · simp [calls, hf, h1]
        · rintro c hc
          rcases List.mem_cons.1 hc with rfl | hc
          · rfl
          · exact h2 c hc
      | some e' =>
        simp only [foreachLoop, hf, Option.some.injEq] at h
        subst h
        exact ⟨[], (k, v), by simp [calls, hf], by simp⟩

theorem calls_initial {σ ε : Type} (f : K → V → σ → σ × Option ε) (l : List (K × V)) :
    ∀ s : σ, ∃ rest, (calls f l s).map Prod.fst ++ rest = l := by
  induction l with
  | nil => intro s; exact ⟨[], by simp [calls]⟩
  | cons p t ih =>
    intro s
    obtain ⟨k, v⟩ := p
    cases hf : f k v s with
    | mk s' r =>
      cases r with
      | none =>
        obtain ⟨rest, h⟩ := ih s'
        exact ⟨rest, by simp [calls, hf, h]⟩
      | some e => exact ⟨t, by simp [calls, hf]⟩

theorem foreachLoop_no_error {σ ε : Type} (f : K → V → σ → σ × Option ε) (l : List (K × V))
    (hf : ∀ s k v, (k, v) ∈ l → (f k v s).2 = none) :
    ∀ s : σ, (foreachLoop f l s).2 = none := by
  induction l with
  | nil => intro s; rfl
  | cons p t ih =>
    intro s
    obtain ⟨k, v⟩ := p
    have h1 := hf s k v (List.mem_cons_self _ _)
    cases hfs : f k v s with
    | mk s' r =>
      rw [hfs] at h1
      simp only at h1
      subst h1
      simp only [foreachLoop, hfs]
      exact ih (fun s k v h => hf s k v (List.mem_cons_of_mem _ h)) s'

theorem liveSet_of_mostRecent [GoEq K] {ops : List (MapOp K V)} {k : K} {v : V}
    (hk : ∀ k', GoEq.eq k' k = true ↔ k' = k) (h : MostRecentLiveSet ops k v) :
    LiveSet ops k v := by
  obtain ⟨pre, post, hops, hs, hd⟩ := h
  refine ⟨pre, post, k, hops, (hk k).2 rfl, ?_, ?_⟩
  · intro k'' v' hm
    cases he : GoEq.eq k'' k with
    | false => rfl
    | true =>
      have hkk := (hk k'').1 he
      subst hkk
      exact absurd hm (hs v')
  · intro k'' hm
    cases he : GoEq.eq k'' k with
    | false => rfl
    | true =>
      have hkk := (hk k'').1 he
      subst hkk
      exact absurd hm hd

theorem mostRecent_of_liveSet [GoEq K] {ops : List (MapOp K V)} {k : K} {v : V}
    (hk : ∀ k', GoEq.eq k' k = true ↔ k' = k) (h : LiveSet ops k v) :
    MostRecentLiveSet ops k v := by
  obtain ⟨pre, post, k', hops, he, hs, hd⟩ := h
  have hkk := (hk k').1 he
  subst hkk
  refine ⟨pre, post, hops, ?_, ?_⟩
  · intro v' hm
    have := hs k' v' hm
    rw [he] at this
    cases this
  · intro hm
    have := hd k' hm
    rw [he] at this
    cases this

end Map
/-! ## Lemmas on slices -/

theorem wrapInt64_of_range (x : Int) (h1 : -2 ^ 63 ≤ x) (h2 : x < 2 ^ 63) : wrapInt64 x = x := by
  unfold wrapInt64
  omega

namespace Slice

variable {E : Type}

theorem length_elems {h : Heap E} {s : Slice E} (hwf : WF h s) : (elems h s).length = s.len := by
  obtain ⟨h1, h2⟩ := hwf
  simp only [elems, List.length_take, List.length_drop]
  omega

theorem array_set (h : Heap E) (i : Nat) (a : List E) :
    (h.set i a).getD i [] = if i < h.length then a else [] := by
  by_cases hi : i < h.length
  · simp [List.getD, hi]
  · have : (h.set i a)[i]? = none := List.getElem?_eq_none (by rw [List.length_set]; omega)
    simp [List.getD, hi, this]

theorem array_alloc (h : Heap E) (a : List E) : (h ++ [a]).getD h.length [] = a := by
  simp [List.getD]

theorem array_of_not_lt (h : Heap E) (s : Slice E) (hi : ¬ s.arr < h.length) :
    array h s = [] := by
  have : h[s.arr]? = none := List.getElem?_eq_none (by omega)
  simp [array, List.getD, this]

theorem length_write (a : List E) (i : Nat) (es : List E) (h : i + es.length ≤ a.length) :
    (write a i es).length = a.length := by
  simp only [write, List.length_append, List.length_take, List.length_drop]
  omega

theorem drop_take_write (a : List E) (o l : Nat) (es : List E) (h : o + l + es.length ≤ a.length) :
    ((write a (o + l) es).drop o).take (l + es.length) = (a.drop o).take l ++ es := by
  have h1 : (a.take (o + l)).length = o + l := by
    rw [List.length_take]
    omega
  have h2 : a.take (o + l) = a.take o ++ (a.drop o).take l := by
    rw [List.take_add]
  have h3 : (a.take o).length = o := by
    rw [List.length_take]
    omega
  have h4 : ((a.drop o).take l).length = l := by
    rw [List.length_take, List.length_drop]
    omega
  rw [write, h2, List.append_assoc, List.append_assoc, List.drop_left' h3, ← List.append_assoc]
  apply List.take_left'
  rw [List.length_append, h4]

theorem elems_append [Inhabited E] (grow : Nat → Nat → Nat) (h : Heap E) (s : Slice E)
    (es : List E) (hwf : WF h s) :
    elems (append grow h s es).1 (append grow h s es).2 = elems h s ++ es := by
  have hlen := length_elems hwf
  obtain ⟨h1, h2⟩ := hwf
  unfold append
  by_cases hc : s.len + es.length ≤ s.cap
  · simp only [hc, if_true]
    by_cases hi : s.arr < h.length
    · have h2' : s.off + s.cap ≤ (h.getD s.arr []).length := h2
      simp only [elems, array, array_set, hi, if_true]
      exact drop_take_write _ _ _ _ (by omega)
    · have ha := array_of_not_lt h s hi
      rw [ha] at h2
      simp only [List.length_nil, Nat.le_zero, Nat.add_eq_zero] at h2
      have hl : s.len = 0 := by omega
      have he : es = [] := List.length_eq_zero.1 (by omega)
      simp [elems, hl, he]
  · simp only [hc, if_false]
    conv_lhs => simp only [elems, array, array_alloc, List.drop_zero]
    apply List.take_left'
    rw [List.length_append]
    show (elems h s).length + es.length = s.len + es.length
    rw [hlen]

theorem WF_append [Inhabited E] (grow : Nat → Nat → Nat) (h : Heap E) (s : Slice E)
    (es : List E) (hwf : WF h s) : WF (append grow h s es).1 (append grow h s es).2 := by
  have hlen := length_elems hwf
  obtain ⟨h1, h2⟩ := hwf
  unfold append
  by_cases hc : s.len + es.length ≤ s.cap
  · simp only [hc, if_true]
    refine ⟨hc, ?_⟩
    by_cases hi : s.arr < h.length
    · have h2' : s.off + s.cap ≤ (h.getD s.arr []).length := h2
      simp only [array, array_set, hi, if_true]
      rw [length_write _ _ _ (by omega)]
      exact h2
    · have ha := array_of_not_lt h s hi
      rw [ha] at h2
      simp only [array, array_set, hi, if_false]
      exact h2
  · simp only [hc, if_false]
    refine ⟨le_max_left _ _, ?_⟩
    have hm : s.len + es.length ≤ max (s.len + es.length) (grow s.cap (s.len + es.length)) :=
      le_max_left _ _
    simp only [array, array_alloc, List.length_append, List.length_replicate, hlen]
    omega

theorem len_append [Inhabited E] (grow : Nat → Nat → Nat) (h : Heap E) (s : Slice E)
    (es : List E) : (append grow h s es).2.len = s.len + es.length := by
  unfold append
  split <;> rfl

theorem elems_shrink (h : Heap E) (s : Slice E) (k : Nat) (hk : k ≤ s.len) :
    elems h { s with len := k } = (elems h s).take k := by
  simp only [elems, array, List.take_take, Nat.min_eq_left hk]

theorem sliceTo_of_le (s : Slice E) (k : Nat) (hk : k ≤ s.cap) :
    sliceTo s (k : Int) = .ok { s with len := k } := by
  have : (0 : Int) ≤ k ∧ (k : Int) ≤ s.cap := ⟨by omega, by omega⟩
  simp [sliceTo, this]

theorem sliceTo_of_neg (s : Slice E) (k : Int) (hk : k < 0) :
    sliceTo s k = .error .sliceBounds := by
  have : ¬ (0 ≤ k ∧ k ≤ (s.cap : Int)) := by omega
  simp [sliceTo, this]

end Slice

/-! ## Claims on `Map` -/

/-- Counterexample to C1 as stated: with `float64` keys, after
`Set(NaN, 1); Set(NaN, 2)` on the zero `Map`, `Set(NaN, 2)` is the most recent
`Set` of that key and no `Delete` follows it, yet `Get(NaN)` returns
`(0, false)`; the map holds two entries.  And after `Set(+0, 1); Set(-0, 2)`,
`Set(+0, 1)` is the only `Set` written with the key `+0`, yet `Get(+0)` returns
`(2, true)`: the map takes keys up to `==`. -/
theorem Map.get_after_ops_nan :
    (MostRecentLiveSet [MapOp.set Float64.nan 1, MapOp.set Float64.nan 2] Float64.nan (2 : Nat) ∧
      ∃ m, (Map.mk (none : RawMap Float64 Nat)).run
          [MapOp.set Float64.nan 1, MapOp.set Float64.nan 2] = .ok m ∧
        m.Get Float64.nan = (0, false) ∧ m.Len = 2) ∧
    (MostRecentLiveSet [MapOp.set Float64.posZero 1, MapOp.set Float64.negZero 2]
        Float64.posZero (1 : Nat) ∧
      ∃ m, (Map.mk (none : RawMap Float64 Nat)).run
          [MapOp.set Float64.posZero 1, MapOp.set Float64.negZero 2] = .ok m ∧
        m.Get Float64.posZero = (2, true) ∧ m.Len = 1) :=
  ⟨⟨⟨[MapOp.set Float64.nan 1], [], rfl, by simp, by simp⟩, _, rfl, rfl, rfl⟩,
   ⟨⟨[], [MapOp.set Float64.negZero 2], rfl, by simp, by simp⟩, _, rfl, rfl, rfl⟩⟩

/-- C1, amended: after any finite sequence of `Set` and `Delete` calls on a
`Map` that starts nil or empty, the sequence runs without a panic and, keys
being compared with `==`, `Get(k)` returns `(v, true)` when `Set(k', v)` is
the most recent `Set` on a key equal to `k` with no later `Delete` on a key
equal to `k`, and the zero value with `false` when there is no such `Set`;
there is none when `k` is not equal to itself.  For a key `k` that `==`
relates to itself and to nothing else, this is the claim in its own words:
`Get(k)` returns `(v, true)` for the most recent `Set(k, v)` not followed by a
`Delete(k)`, and the zero value with `false` when there is none. -/
theorem Map.get_after_ops {K V : Type} [GoEq K] [Inhabited V]
    (m0 : Map K V) (ops : List (MapOp K V)) (k : K)
    (h0 : m0.Raw = none ∨ m0.Raw = some []) :
    ∃ m, m0.run ops = .ok m ∧
      (∀ v, LiveSet ops k v → m.Get k = (v, true)) ∧
      ((¬ ∃ v, LiveSet ops k v) → m.Get k = (default, false)) ∧
      (GoEq.eq k k = false → m.Get k = (default, false)) ∧
      ((∀ k', GoEq.eq k' k = true ↔ k' = k) →
        (∀ v, MostRecentLiveSet ops k v → m.Get k = (v, true)) ∧
        ((¬ ∃ v, MostRecentLiveSet ops k v) → m.Get k = (default, false))) := by
  obtain ⟨m, hm⟩ := Map.run_total ops m0
  have hfind := Map.find_run k ops m0 m hm
  have hempty : RawMap.find k (RawMap.entries m0.Raw) = none := by
    rcases h0 with h | h <;> rw [h] <;> rfl
  rw [hempty] at hfind
  have hnone : (¬ ∃ v, LiveSet ops k v) → m.Get k = (default, false) := by
    intro hno
    rw [Map.Get_eq, hfind]
    cases hl : Map.liveFrom k none ops with
    | none => rfl
    | some v =>
      rcases Map.liveSet_of_liveFrom k v ops none hl with h1 | ⟨h1, _⟩
      · exact absurd ⟨v, h1⟩ hno
      · cases h1
  have hsome : ∀ v, LiveSet ops k v → m.Get k = (v, true) := by
    intro v hv
    rw [Map.Get_eq, hfind, Map.liveFrom_of_liveSet hv]
  refine ⟨m, hm, hsome, hnone, ?_, ?_⟩
  · intro hk
    apply hnone
    rintro ⟨v, pre, post, k', _, hk', _⟩
    have := RawMap.eq_self_of_eq hk'
    rw [hk] at this
    cases this
  · intro hk
    refine ⟨fun v hv => hsome v (Map.liveSet_of_mostRecent hk hv), fun hno => hnone ?_⟩
    rintro ⟨v, hv⟩
    exact hno ⟨v, Map.mostRecent_of_liveSet hk hv⟩

/-- Witness of C1, amended: `Set(1, 10); Set(2, 20); Delete(1); Set(2, 21)` on
the zero `Map` runs to a map where `Get(2)` is `(21, true)`. -/
theorem Map.get_after_ops_witness :
    ∃ m, (Map.mk (none : RawMap Nat Nat)).run
        [MapOp.set 1 10, MapOp.set 2 20, MapOp.delete 1, MapOp.set 2 21] = .ok m ∧
      m.Get 2 = (21, true) :=
  let ⟨m, hrun, hlive, _⟩ := Map.get_after_ops (Map.mk (none : RawMap Nat Nat))
    [MapOp.set 1 10, MapOp.set 2 20, MapOp.delete 1, MapOp.set 2 21] 2 (Or.inl rfl)
  ⟨m, hrun, hlive 21 ⟨[MapOp.set 1 10, MapOp.set 2 20, MapOp.delete 1], [], 2, rfl, rfl,
    by simp, by simp⟩⟩

/-- C2: on a `Map` with unique keys (nil store included) `Set(k, v)` does not
panic and increases `Len()` by exactly 1 when `k` is absent and leaves it
unchanged when `k` is present; `Delete(k)` decreases `Len()` by exactly 1 when
`k` is present and leaves it unchanged when `k` is absent; and after `Set` on
`n` pairwise distinct keys from a nil or empty `Map`, `Len()` is `n`.  A key is
present when `Get` finds it; keys are distinct when `==` is false of them. -/
theorem Map.len_set_delete {K V : Type} [GoEq K] [Inhabited V]
    (m : Map K V) (k : K) (v : V) (hwf : RawMap.WF m.Raw) :
    (∃ m', m.Set k v = .ok m' ∧
      ((m.Get k).2 = false → m'.Len = m.Len + 1) ∧
      ((m.Get k).2 = true → m'.Len = m.Len)) ∧
    ((m.Get k).2 = true → (m.Delete k).Len + 1 = m.Len) ∧
    ((m.Get k).2 = false → (m.Delete k).Len = m.Len) ∧
    (∀ (m0 : Map K V) (kvs : List (K × V)), (m0.Raw = none ∨ m0.Raw = some []) →
      (kvs.map Prod.fst).Pairwise (fun a b => GoEq.eq a b = false) →
      ∃ m', m0.run (kvs.map (fun p => MapOp.set p.1 p.2)) = .ok m' ∧ m'.Len = kvs.length) := by
  refine ⟨⟨_, Map.Set_eq m k v, ?_, ?_⟩, ?_, ?_, ?_⟩
  · intro h
    exact Map.Len_Set_of_none m k v ((Map.Get_snd_eq_false_iff m k).1 h)
  · intro h
    exact Map.Len_Set_of_some m k v ((Map.Get_snd_eq_true_iff m k).1 h)
  · intro h
    have := RawMap.length_remove_of_some k _ hwf ((Map.Get_snd_eq_true_iff m k).1 h)
    simpa [Map.Len, RawMap.len, Map.entries_Delete] using this
  · intro h
    have := RawMap.remove_of_none k _ ((Map.Get_snd_eq_false_iff m k).1 h)
    simp [Map.Len, RawMap.len, Map.entries_Delete, this]
  · intro m0 kvs h0 hn
    have he : RawMap.entries m0.Raw = [] := by
      rcases h0 with h | h <;> rw [h] <;> rfl
    obtain ⟨m', hrun, hlen⟩ := Map.Len_run_sets kvs m0 hn (by
      intro k' _
      rw [he]
      rfl)
    refine ⟨m', hrun, ?_⟩
    rw [hlen]
    simp [Map.Len, RawMap.len, he]

/-- Witness of C2: the map with the entries `(1, 10)` and `(2, 20)`, key `2`. -/
theorem Map.len_set_delete_witness :
    RawMap.WF (Map.mk (some [(1, 10), (2, 20)]) : Map Nat Nat).Raw ∧
    (((Map.mk (some [(1, 10), (2, 20)]) : Map Nat Nat).Delete 2).Len + 1 =
      (Map.mk (some [(1, 10), (2, 20)]) : Map Nat Nat).Len) :=
  ⟨by decide,
   (Map.len_set_delete (Map.mk (some [(1, 10), (2, 20)]) : Map Nat Nat) 2 21 (by decide)).2.1
     (by decide)⟩

/-- C3: when the visitor `f` returns no error on any entry of `m`, in whatever
order the runtime ranges over the map, `Foreach(f)` invokes `f` exactly once
for each entry of `m` and for nothing else (the recorded calls are a
rearrangement of the entries, each returning nil, and without repetition when
no two entries of `m` are the same pair), returns nil, leaves `m` as it was,
and leaves the visitor in the state the plain visitor reaches. -/
theorem Map.foreach_visits_all {K V σ ε : Type} (ro : RangeOrder (K × V)) (m : Map K V)
    (f : K → V → σ → σ × Option ε) (s0 : σ)
    (hf : ∀ s k v, (k, v) ∈ RawMap.entries m.Raw → (f k v s).2 = none) :
    (m.Foreach ro (traced f) (s0, [])).1 = m ∧
    (m.Foreach ro (traced f) (s0, [])).2.2 = none ∧
    ((m.Foreach ro (traced f) (s0, [])).2.1.2.map Prod.fst).Perm (RawMap.entries m.Raw) ∧
    ((RawMap.entries m.Raw).Nodup →
      ((m.Foreach ro (traced f) (s0, [])).2.1.2.map Prod.fst).Nodup) ∧
    (∀ c ∈ (m.Foreach ro (traced f) (s0, [])).2.1.2, c.2 = none) ∧
    (m.Foreach ro (traced f) (s0, [])).2.1.1 = (m.Foreach ro f s0).2.1 := by
  have hf' : ∀ s k v, (k, v) ∈ ro.order (RawMap.entries m.Raw) → (f k v s).2 = none :=
    fun s k v h => hf s k v ((ro.perm _).mem_iff.1 h)
  have hok := Map.foreachLoop_no_error f _ hf' s0
  obtain ⟨h1, h2⟩ := Map.calls_of_ok f _ s0 hok
  simp only [Map.Foreach, Map.foreachLoop_traced, List.nil_append, h1]
  exact ⟨trivial, hok, ro.perm _, fun hnd => (ro.perm _).nodup_iff.2 hnd, h2, trivial⟩

/-- Witness of C3: a visitor that counts its calls and never fails, over the
map with the entries `(1, 10)` and `(2, 20)` ranged in reverse order. -/
theorem Map.foreach_visits_all_witness :
    ((Map.mk (some [(1, 10), (2, 20)]) : Map Nat Nat).Foreach (RangeOrder.reversed _)
      (traced (fun _ _ (n : Nat) => (n + 1, (none : Option String)))) (0, [])).2.1.2.map Prod.fst
      = [(2, 20), (1, 10)] ∧
    ((Map.mk (some [(1, 10), (2, 20)]) : Map Nat Nat).Foreach (RangeOrder.reversed _)
      (traced (fun _ _ (n : Nat) => (n + 1, (none : Option String)))) (0, [])).2.2 = none :=
  ⟨by decide,
   (Map.foreach_visits_all (RangeOrder.reversed _) (Map.mk (some [(1, 10), (2, 20)]) : Map Nat Nat)
     (fun _ _ (n : Nat) => (n + 1, (none : Option String))) 0
     (fun _ _ _ _ => rfl)).2.1⟩

/-- C4: in whatever order the runtime ranges over the map, `Foreach(f)` returns
a non-nil error exactly when some invocation of `f` returned one; the error
returned is then the one of the first failing invocation, which is the last
call made; and the calls made are an initial part of the range over the
entries, so that no entry is visited twice (no pair is recorded twice when no
two entries of `m` are the same pair). -/
theorem Map.foreach_short_circuit {K V σ ε : Type} (ro : RangeOrder (K × V)) (m : Map K V)
    (f : K → V → σ → σ × Option ε) (s0 : σ) :
    (m.Foreach ro (traced f) (s0, [])).1 = m ∧
    ((m.Foreach ro (traced f) (s0, [])).2.2 ≠ none ↔
      ∃ c ∈ (m.Foreach ro (traced f) (s0, [])).2.1.2, c.2 ≠ none) ∧
    (∀ e, (m.Foreach ro (traced f) (s0, [])).2.2 = some e →
      ∃ pre kv, (m.Foreach ro (traced f) (s0, [])).2.1.2 = pre ++ [(kv, some e)] ∧
        ∀ c ∈ pre, c.2 = none) ∧
    (∃ rest, (m.Foreach ro (traced f) (s0, [])).2.1.2.map Prod.fst ++ rest =
      ro.order (RawMap.entries m.Raw)) ∧
    ((RawMap.entries m.Raw).Nodup →
      ((m.Foreach ro (traced f) (s0, [])).2.1.2.map Prod.fst).Nodup) := by
  simp only [Map.Foreach, Map.foreachLoop_traced, List.nil_append]
  obtain ⟨rest, hrest⟩ := Map.calls_initial f (ro.order (RawMap.entries m.Raw)) s0
  refine ⟨trivial, ?_, ?_, ⟨rest, hrest⟩, ?_⟩
  · constructor
    · intro h
      cases he : (Map.foreachLoop f (ro.order (RawMap.entries m.Raw)) s0).2 with
      | none => exact absurd he h
      | some e =>
        obtain ⟨pre, kv, h1, _⟩ := Map.calls_of_error f _ s0 e he
        exact ⟨(kv, some e), by simp [h1], by simp⟩
    · rintro ⟨c, hc, hne⟩ h
      exact hne ((Map.calls_of_ok f _ s0 h).2 c hc)
  · intro e he
    exact Map.calls_of_error f _ s0 e he
  · intro hent
    have hnd : (ro.order (RawMap.entries m.Raw)).Nodup := (ro.perm _).nodup_iff.2 hent
    rw [← hrest] at hnd
    exact (List.nodup_append.1 hnd).1

/-- Witness of C4: a visitor that fails on key `2`, over the map with the
entries `(1, 10)`, `(2, 20)` and `(3, 30)` ranged in stored order: the calls
are those on keys `1` and `2`, and the error of the second is returned. -/
theorem Map.foreach_short_circuit_witness :
    ((Map.mk (some [(1, 10), (2, 20), (3, 30)]) : Map Nat Nat).Foreach (RangeOrder.stored _)
      (traced (fun k _ (n : Nat) => (n + 1, if k = 2 then some "stop" else none))) (0, [])).2
      = ((2, [((1, 10), none), ((2, 20), some "stop")]), some "stop") ∧
    (((Map.mk (some [(1, 10), (2, 20), (3, 30)]) : Map Nat Nat).Foreach (RangeOrder.stored _)
      (traced (fun k _ (n : Nat) => (n + 1, if k = 2 then some "stop" else none)))
      (0, [])).2.1.2.map Prod.fst).Nodup :=
  ⟨by decide,
   (Map.foreach_short_circuit (RangeOrder.stored _)
     (Map.mk (some [(1, 10), (2, 20), (3, 30)]) : Map Nat Nat)
     (fun k _ (n : Nat) => (n + 1, if k = 2 then some "stop" else none)) 0).2.2.2.2
     (by decide)⟩

/-! ## Lemmas on `Vector` -/

namespace Vector

variable {E : Type}

theorem elems_Push [Inhabited E] (grow : Nat → Nat → Nat) (h : Heap E) (v : Vector E)
    (es : List E) (hwf : Slice.WF h v.Raw) :
    (v.Push grow h es).2.elems (v.Push grow h es).1 = v.elems h ++ es :=
  Slice.elems_append grow h v.Raw es hwf

theorem Len_Push [Inhabited E] (grow : Nat → Nat → Nat) (h : Heap E) (v : Vector E)
    (es : List E) : (v.Push grow h es).2.Len = v.Len + es.length :=
  Slice.len_append grow h v.Raw es

theorem WF_Push [Inhabited E] (grow : Nat → Nat → Nat) (h : Heap E) (v : Vector E)
    (es : List E) (hwf : Slice.WF h v.Raw) :
    Slice.WF (v.Push grow h es).1 (v.Push grow h es).2.Raw :=
  Slice.WF_append grow h v.Raw es hwf

theorem PopN_of_nat (v : Vector E) (k : Nat) (hk : k ≤ v.Len) (hcap : v.Len ≤ v.Cap)
    (hlen : (v.Len : Int) - k < 2 ^ 63) :
    v.PopN (k : Int) = .ok { Raw := { v.Raw with len := v.Len - k } } := by
  have hw : wrapInt64 ((v.Len : Int) - k) = ((v.Len - k : Nat) : Int) := by
    rw [wrapInt64_of_range _ (by omega) hlen]
    omega
  have hc : v.Len - k ≤ v.Raw.cap := by
    unfold Len Cap at *
    omega
  unfold PopN
  rw [hw, Slice.sliceTo_of_le _ _ hc]

theorem PopN_ok_inv (v v' : Vector E) (n : Int) (h : v.PopN n = .ok v') :
    0 ≤ wrapInt64 ((v.Len : Int) - n) ∧ wrapInt64 ((v.Len : Int) - n) ≤ (v.Cap : Int) ∧
      v' = { Raw := { v.Raw with len := (wrapInt64 ((v.Len : Int) - n)).toNat } } := by
  unfold PopN Slice.sliceTo at h
  by_cases hb : 0 ≤ wrapInt64 ((v.Len : Int) - n) ∧ wrapInt64 ((v.Len : Int) - n) ≤ (v.Raw.cap : Int)
  · simp only [hb, and_self, if_true, Except.ok.injEq] at h
    exact ⟨hb.1, hb.2, h.symm⟩
  · simp [hb] at h

end Vector

namespace ComparableVector

variable {E : Type}

theorem containsLoop_iff [GoEq E] (e : E) (l : List E) :
    containsLoop e l = true ↔ ∃ a ∈ l, GoEq.eq a e = true := by
  induction l with
  | nil => simp [containsLoop]
  | cons a t ih =>
    cases h : GoEq.eq a e with
    | true => simp [containsLoop, h]
    | false => simp [containsLoop, h, ih]

theorem containsLoop_single [GoEq E] (e x : E) : containsLoop e [x] = GoEq.eq x e := by
  cases h : GoEq.eq x e <;> simp [containsLoop, h]

theorem Pop_of_ok (v : ComparableVector E) (r : Collection.Vector E) (hp : v.Vector.Pop = .ok r) :
    v.Pop = .ok { Vector := r } := by
  unfold Pop
  rw [hp]

theorem PopN_of_ok (v : ComparableVector E) (n : Int) (r : Collection.Vector E)
    (hp : v.Vector.PopN n = .ok r) : v.PopN n = .ok { Vector := r } := by
  unfold PopN
  rw [hp]

theorem pushPop_of_ok [Inhabited E] [GoEq E] (grow : Nat → Nat → Nat) (h : Heap E)
    (v : ComparableVector E) (x : E) (v2 : ComparableVector E)
    (hp : (v.Push grow h [x]).2.Pop = .ok v2) :
    v.pushPop grow h x = .ok (v2.Contains (v.Push grow h [x]).1 x).1 := by
  unfold pushPop
  rw [hp]

theorem pushPushPopN_of_ok [Inhabited E] [GoEq E] (grow : Nat → Nat → Nat) (h : Heap E)
    (v : ComparableVector E) (x y : E) (v3 : ComparableVector E)
    (hp : ((v.Push grow h [x]).2.Push grow (v.Push grow h [x]).1 [y]).2.PopN 1 = .ok v3) :
    v.pushPushPopN grow h x y =
      .ok ((v3.Contains ((v.Push grow h [x]).2.Push grow (v.Push grow h [x]).1 [y]).1 x).1,
           (v3.Contains ((v.Push grow h [x]).2.Push grow (v.Push grow h [x]).1 [y]).1 y).1) := by
  unfold pushPushPopN
  rw [hp]

end ComparableVector

/-! ## Claims on `Vector` -/

/-- C5: after `v.Push(es...)` on a well-formed vector with contents `xs`, the
contents are `xs` followed by `es` in order (also for empty `es`): `Len()` has
grown by `len(es)`, the elements at the previous indices are unchanged, the
last `len(es)` elements are `es`, and the vector is well formed again. -/
theorem Vector.push_contents {E : Type} [Inhabited E] (grow : Nat → Nat → Nat) (h : Heap E)
    (v : Vector E) (es : List E) (hwf : Slice.WF h v.Raw) :
    (v.Push grow h es).2.elems (v.Push grow h es).1 = v.elems h ++ es ∧
    (v.Push grow h es).2.Len = v.Len + es.length ∧
    ((v.Push grow h es).2.elems (v.Push grow h es).1).take v.Len = v.elems h ∧
    ((v.Push grow h es).2.elems (v.Push grow h es).1).drop v.Len = es ∧
    Slice.WF (v.Push grow h es).1 (v.Push grow h es).2.Raw := by
  have he := Vector.elems_Push grow h v es hwf
  have hl : (v.elems h).length = v.Len := Slice.length_elems hwf
  refine ⟨he, Vector.Len_Push grow h v es, ?_, ?_, Vector.WF_Push grow h v es hwf⟩
  · rw [he]
    exact List.take_left' hl
  · rw [he]
    exact List.drop_left' hl

/-- Witness of C5: `Push(3, 4)` on the vector `[1, 2]` of capacity 3, whose
backing array is reallocated. -/
theorem Vector.push_contents_witness :
    Slice.WF [[1, 2, 9]] (Vector.mk ⟨0, 0, 2, 3⟩ : Vector Nat).Raw ∧
    ((Vector.mk ⟨0, 0, 2, 3⟩ : Vector Nat).Push (fun c _ => 2 * c) [[1, 2, 9]] [3, 4]).2.elems
      ((Vector.mk ⟨0, 0, 2, 3⟩ : Vector Nat).Push (fun c _ => 2 * c) [[1, 2, 9]] [3, 4]).1
      = [1, 2, 3, 4] :=
  ⟨by decide,
   (Vector.push_contents (fun c _ => 2 * c) [[1, 2, 9]] (Vector.mk ⟨0, 0, 2, 3⟩ : Vector Nat)
     [3, 4] (by decide)).1⟩

/-- C6: on a well-formed vector with `Len() >= 1`, `Pop()` succeeds, removes
exactly the last element and decreases `Len()` by exactly 1, leaving the
elements at the indices below unchanged; and `Push(e)` followed by `Pop()`
restores the original contents. -/
theorem Vector.pop_removes_last {E : Type} [Inhabited E] (grow : Nat → Nat → Nat) (h : Heap E)
    (v : Vector E) (hwf : Slice.WF h v.Raw) (hlen : (v.Len : Int) < 2 ^ 63) :
    (1 ≤ v.Len → ∃ v', v.Pop = .ok v' ∧ v'.elems h = (v.elems h).dropLast ∧
      v'.Len + 1 = v.Len ∧ ∀ i, i < v'.Len → (v'.elems h)[i]? = (v.elems h)[i]?) ∧
    (∀ e, ∃ v', (v.Push grow h [e]).2.Pop = .ok v' ∧
      v'.elems (v.Push grow h [e]).1 = v.elems h) := by
  have hl : (v.elems h).length = v.Len := Slice.length_elems hwf
  constructor
  · intro h1
    have hp : v.Pop = .ok { Raw := { v.Raw with len := v.Len - 1 } } :=
      Vector.PopN_of_nat v 1 h1 hwf.1 (by omega)
    have he : (Vector.mk { v.Raw with len := v.Len - 1 } : Vector E).elems h =
        (v.elems h).take (v.Len - 1) := Slice.elems_shrink h v.Raw (v.Len - 1) (Nat.sub_le _ _)
    refine ⟨_, hp, ?_, ?_, ?_⟩
    · rw [he, List.dropLast_eq_take, hl]
    · show v.Len - 1 + 1 = v.Len
      omega
    · intro i hi
      have hi' : i < v.Len - 1 := hi
      rw [he, List.getElem?_take, if_pos hi']
  · intro e
    have hpe := Vector.elems_Push grow h v [e] hwf
    have hpl := Vector.Len_Push grow h v [e]
    have hpw := Vector.WF_Push grow h v [e] hwf
    have hp : (v.Push grow h [e]).2.Pop =
        .ok { Raw := { (v.Push grow h [e]).2.Raw with len := (v.Push grow h [e]).2.Len - 1 } } :=
      Vector.PopN_of_nat _ 1 (by rw [hpl]; simp) hpw.1 (by rw [hpl]; simp; omega)
    refine ⟨_, hp, ?_⟩
    have he := Slice.elems_shrink (v.Push grow h [e]).1 (v.Push grow h [e]).2.Raw
      ((v.Push grow h [e]).2.Len - 1) (Nat.sub_le _ _)
    show Slice.elems _ _ = _
    rw [he]
    show List.take _ ((v.Push grow h [e]).2.elems (v.Push grow h [e]).1) = _
    rw [hpe, hpl]
    exact List.take_left' (by rw [hl]; simp)

/-- Witness of C6: `Pop()` on the vector `[1, 2]` of capacity 3 leaves `[1]`. -/
theorem Vector.pop_removes_last_witness :
    Slice.WF [[1, 2, 9]] (Vector.mk ⟨0, 0, 2, 3⟩ : Vector Nat).Raw ∧
    ∃ v', (Vector.mk ⟨0, 0, 2, 3⟩ : Vector Nat).Pop = .ok v' ∧
      v'.elems [[1, 2, 9]] = ((Vector.mk ⟨0, 0, 2, 3⟩ : Vector Nat).elems [[1, 2, 9]]).dropLast :=
  ⟨by decide,
   let ⟨v', h1, h2, _⟩ := (Vector.pop_removes_last (fun c _ => 2 * c) [[1, 2, 9]]
     (Vector.mk ⟨0, 0, 2, 3⟩ : Vector Nat) (by decide) (by decide)).1 (by decide)
   ⟨v', h1, h2⟩⟩

/-- C7: on a well-formed vector with contents `xs`, for `0 <= n <= len(xs)`,
`PopN(n)` succeeds and leaves exactly the first `len(xs) - n` elements of `xs`
in their order; `PopN(0)` changes nothing and `PopN(1)` is `Pop()`. -/
theorem Vector.popN_removes_tail {E : Type} (h : Heap E) (v : Vector E) (n : Int)
    (hwf : Slice.WF h v.Raw) (hlen : (v.Len : Int) < 2 ^ 63) (h0 : 0 ≤ n) (hn : n ≤ v.Len) :
    (∃ v', v.PopN n = .ok v' ∧ v'.elems h = (v.elems h).take (v.Len - n.toNat) ∧
      (v'.Len : Int) = v.Len - n ∧ v'.Cap = v.Cap) ∧
    v.PopN 0 = .ok v ∧ v.PopN 1 = v.Pop := by
  obtain ⟨k, rfl⟩ := Int.eq_ofNat_of_zero_le h0
  have hk : k ≤ v.Len := by omega
  refine ⟨⟨_, Vector.PopN_of_nat v k hk hwf.1 (by omega), ?_, ?_, rfl⟩, ?_, rfl⟩
  · exact Slice.elems_shrink h v.Raw (v.Len - k) (Nat.sub_le _ _)
  · show ((v.Len - k : Nat) : Int) = _
    omega
  · exact Vector.PopN_of_nat v 0 (Nat.zero_le _) hwf.1 (by simpa using hlen)

/-- Witness of C7: `PopN(2)` on the vector `[1, 2, 3]`. -/
theorem Vector.popN_removes_tail_witness :
    ∃ v', (Vector.mk ⟨0, 0, 3, 3⟩ : Vector Nat).PopN 2 = .ok v' ∧
      v'.elems [[1, 2, 3]] = [1] :=
  let ⟨v', h1, h2, _⟩ := (Vector.popN_removes_tail [[1, 2, 3]]
    (Vector.mk ⟨0, 0, 3, 3⟩ : Vector Nat) 2 (by decide) (by decide) (by decide) (by decide)).1
  ⟨v', h1, h2⟩

/-- C8: `Pop()` on a vector of length 0 and `PopN(n)` with `n > Len()` (`n` a
Go `int`) panic with the slice-bounds fault; and whenever `Pop` or `PopN`
returns, the new length is the bound `Len() - n` computed by the code, it is
not negative and not above the capacity, nothing else of the vector has
changed, and a well-formed vector stays well formed. -/
theorem Vector.pop_out_of_bounds {E : Type} (h : Heap E) (v : Vector E) :
    (v.Len = 0 → v.Pop = .error .sliceBounds) ∧
    (∀ n : Int, n < 2 ^ 63 → (v.Len : Int) < n → v.PopN n = .error .sliceBounds) ∧
    (∀ (n : Int) (v' : Vector E), v.PopN n = .ok v' →
      0 ≤ wrapInt64 ((v.Len : Int) - n) ∧ (v'.Len : Int) = wrapInt64 ((v.Len : Int) - n) ∧
      v'.Len ≤ v'.Cap ∧ v'.Cap = v.Cap ∧ v'.Raw.arr = v.Raw.arr ∧ v'.Raw.off = v.Raw.off ∧
      (Slice.WF h v.Raw → Slice.WF h v'.Raw)) ∧
    (∀ v' : Vector E, v.Pop = .ok v' →
      0 ≤ wrapInt64 ((v.Len : Int) - 1) ∧ (v'.Len : Int) = wrapInt64 ((v.Len : Int) - 1) ∧
      v'.Len ≤ v'.Cap ∧ v'.Cap = v.Cap ∧ v'.Raw.arr = v.Raw.arr ∧ v'.Raw.off = v.Raw.off ∧
      (Slice.WF h v.Raw → Slice.WF h v'.Raw)) := by
  have key : ∀ (n : Int) (v' : Vector E), v.PopN n = .ok v' →
      0 ≤ wrapInt64 ((v.Len : Int) - n) ∧ (v'.Len : Int) = wrapInt64 ((v.Len : Int) - n) ∧
      v'.Len ≤ v'.Cap ∧ v'.Cap = v.Cap ∧ v'.Raw.arr = v.Raw.arr ∧ v'.Raw.off = v.Raw.off ∧
      (Slice.WF h v.Raw → Slice.WF h v'.Raw) := by
    intro n v' hp
    obtain ⟨h1, h2, rfl⟩ := Vector.PopN_ok_inv v v' n hp
    have h3 : (wrapInt64 ((v.Len : Int) - n)).toNat ≤ v.Cap := by omega
    refine ⟨h1, ?_, h3, rfl, rfl, rfl, ?_⟩
    · show (((wrapInt64 ((v.Len : Int) - n)).toNat : Nat) : Int) = _
      omega
    · intro hwf
      exact ⟨h3, hwf.2⟩
  have neg : ∀ n : Int, n < 2 ^ 63 → (v.Len : Int) < n → v.PopN n = .error .sliceBounds := by
    intro n hn hlt
    have hw : wrapInt64 ((v.Len : Int) - n) = (v.Len : Int) - n :=
      wrapInt64_of_range _ (by omega) (by omega)
    unfold Vector.PopN
    rw [hw, Slice.sliceTo_of_neg _ _ (by omega)]
  refine ⟨?_, neg, key, fun v' hp => key 1 v' hp⟩
  intro h0
  exact neg 1 (by norm_num) (by omega)

/-- C9: `Contains(e)` is true exactly when some index `i` below `Len()` holds
an element equal to `e` under `==`; on an empty vector it is false; and it
returns the receiver as it was. -/
theorem ComparableVector.contains_iff {E : Type} [GoEq E] (h : Heap E)
    (v : ComparableVector E) (e : E) :
    ((v.Contains h e).1 = true ↔
      ∃ i, i < v.Len ∧ ∃ a, (v.Vector.elems h)[i]? = some a ∧ GoEq.eq a e = true) ∧
    (v.Len = 0 → (v.Contains h e).1 = false) ∧
    (v.Contains h e).2 = v := by
  have hle : (v.Vector.elems h).length ≤ v.Len := by
    simp only [Vector.elems, Slice.elems, List.length_take]
    exact Nat.min_le_left _ _
  have hiff : (v.Contains h e).1 = true ↔
      ∃ i, i < v.Len ∧ ∃ a, (v.Vector.elems h)[i]? = some a ∧ GoEq.eq a e = true := by
    show ComparableVector.containsLoop e (v.Vector.elems h) = true ↔ _
    rw [ComparableVector.containsLoop_iff]
    constructor
    · rintro ⟨a, ha, hae⟩
      obtain ⟨i, hi⟩ := List.mem_iff_getElem?.1 ha
      have := (List.getElem?_eq_some_iff.1 hi).1
      exact ⟨i, by omega, a, hi, hae⟩
    · rintro ⟨i, _, a, hi, hae⟩
      exact ⟨a, List.mem_iff_getElem?.2 ⟨i, hi⟩, hae⟩
  refine ⟨hiff, ?_, rfl⟩
  intro h0
  cases hc : (v.Contains h e).1 with
  | false => rfl
  | true =>
    obtain ⟨i, hi, _⟩ := hiff.1 hc
    omega

/-- Witness of C8: `Pop()` on the zero vector and `PopN(3)` on a vector of
length 2 panic. -/
theorem Vector.pop_out_of_bounds_witness :
    (Vector.mk ⟨0, 0, 0, 0⟩ : Vector Nat).Pop = .error .sliceBounds ∧
    (Vector.mk ⟨0, 0, 2, 3⟩ : Vector Nat).PopN 3 = .error .sliceBounds :=
  ⟨(Vector.pop_out_of_bounds ([] : Heap Nat) (Vector.mk ⟨0, 0, 0, 0⟩)).1 rfl,
   (Vector.pop_out_of_bounds [[1, 2, 9]] (Vector.mk ⟨0, 0, 2, 3⟩)).2.1 3 (by decide) (by decide)⟩

/-- Witness of C9: `Contains(2)` on the vector `[1, 2]` of capacity 3, whose
backing array holds `9` beyond the length. -/
theorem ComparableVector.contains_iff_witness :
    ((ComparableVector.mk (Vector.mk ⟨0, 0, 2, 3⟩) : ComparableVector Nat).Contains
      [[1, 2, 9]] 2).1 = true ∧
    ((ComparableVector.mk (Vector.mk ⟨0, 0, 2, 3⟩) : ComparableVector Nat).Contains
      [[1, 2, 9]] 9).1 = false :=
  ⟨(ComparableVector.contains_iff [[1, 2, 9]] (ComparableVector.mk (Vector.mk ⟨0, 0, 2, 3⟩)) 2).1.2
     ⟨1, by decide, 2, rfl, rfl⟩,
   by decide⟩

/-- Counterexample to C10 as stated: on the zero vector, after
`Push(7); Push(7); PopN(1)` both `Contains(7)` calls return true, so
`Contains(y)` is not false when `y` equals `x`; and on the zero vector of
`float64`, after `Push(NaN); Push(1.5); PopN(1)` the call `Contains(NaN)`
returns false, so `Contains(x)` is not true when `x` is not equal to itself. -/
theorem ComparableVector.contains_after_popN_equal :
    ComparableVector.pushPushPopN (fun _ n => n) ([] : Heap Nat)
      (ComparableVector.mk (Vector.mk ⟨0, 0, 0, 0⟩)) 7 7 = .ok (true, true) ∧
    ComparableVector.pushPushPopN (fun _ n => n) ([] : Heap Float64)
      (ComparableVector.mk (Vector.mk ⟨0, 0, 0, 0⟩)) Float64.nan (Float64.num 15)
      = .ok (false, false) :=
  ⟨rfl, rfl⟩

/-- C10, amended: starting from an empty well-formed `ComparableVector`, for
every `x` and `y`: after `Push(x); Pop()` the call `Contains(x)` returns false;
and after `Push(x); Push(y); PopN(1)` the call `Contains(x)` returns the value
of `x == x`, so true when `x` is equal to itself, and `Contains(y)` returns the
value of `x == y`, so false when `y` is not equal to `x`. -/
theorem ComparableVector.contains_after_pop {E : Type} [Inhabited E] [GoEq E]
    (grow : Nat → Nat → Nat) (h : Heap E) (v : ComparableVector E) (x y : E)
    (hwf : Slice.WF h v.Vector.Raw) (hempty : v.Len = 0) :
    v.pushPop grow h x = .ok false ∧
    v.pushPushPopN grow h x y = .ok (GoEq.eq x x, GoEq.eq x y) := by
  have hempty' : v.Vector.Len = 0 := hempty
  have hv0 : v.Vector.elems h = [] :=
    List.length_eq_zero.1 ((Slice.length_elems hwf).trans hempty')
  have e1 := Vector.elems_Push grow h v.Vector [x] hwf
  have l1 := Vector.Len_Push grow h v.Vector [x]
  have w1 := Vector.WF_Push grow h v.Vector [x] hwf
  rw [hv0, List.nil_append] at e1
  rw [hempty'] at l1
  have p1 : (v.Vector.Push grow h [x]).2.Pop = .ok
      { Raw := { (v.Vector.Push grow h [x]).2.Raw with len := (v.Vector.Push grow h [x]).2.Len - 1 } } :=
    Vector.PopN_of_nat _ 1 (by rw [l1]; simp) w1.1 (by rw [l1]; simp)
  have e2 := Vector.elems_Push grow (v.Vector.Push grow h [x]).1 (v.Vector.Push grow h [x]).2 [y] w1
  have l2 := Vector.Len_Push grow (v.Vector.Push grow h [x]).1 (v.Vector.Push grow h [x]).2 [y]
  have w2 := Vector.WF_Push grow (v.Vector.Push grow h [x]).1 (v.Vector.Push grow h [x]).2 [y] w1
  rw [e1] at e2
  rw [l1] at l2
  have p2 : ((v.Vector.Push grow h [x]).2.Push grow (v.Vector.Push grow h [x]).1 [y]).2.PopN 1 =
      .ok { Raw := { ((v.Vector.Push grow h [x]).2.Push grow
          (v.Vector.Push grow h [x]).1 [y]).2.Raw with
        len := ((v.Vector.Push grow h [x]).2.Push grow
          (v.Vector.Push grow h [x]).1 [y]).2.Len - 1 } } :=
    Vector.PopN_of_nat _ 1 (by rw [l2]; simp) w2.1 (by rw [l2]; simp)
  have he1 := Slice.elems_shrink (v.Vector.Push grow h [x]).1 (v.Vector.Push grow h [x]).2.Raw
    ((v.Vector.Push grow h [x]).2.Len - 1) (Nat.sub_le _ _)
  have e1' : Slice.elems (v.Vector.Push grow h [x]).1 (v.Vector.Push grow h [x]).2.Raw = [x] := e1
  have he1' := he1.trans (show List.take ((v.Vector.Push grow h [x]).2.Len - 1)
    (Slice.elems (v.Vector.Push grow h [x]).1 (v.Vector.Push grow h [x]).2.Raw) = [] by
      rw [e1', l1]; rfl)
  have he2 := Slice.elems_shrink
    ((v.Vector.Push grow h [x]).2.Push grow (v.Vector.Push grow h [x]).1 [y]).1
    ((v.Vector.Push grow h [x]).2.Push grow (v.Vector.Push grow h [x]).1 [y]).2.Raw
    (((v.Vector.Push grow h [x]).2.Push grow (v.Vector.Push grow h [x]).1 [y]).2.Len - 1)
    (Nat.sub_le _ _)
  have e2' : Slice.elems
      ((v.Vector.Push grow h [x]).2.Push grow (v.Vector.Push grow h [x]).1 [y]).1
      ((v.Vector.Push grow h [x]).2.Push grow (v.Vector.Push grow h [x]).1 [y]).2.Raw
      = [x, y] := e2
  have he2' := he2.trans (show List.take
    (((v.Vector.Push grow h [x]).2.Push grow (v.Vector.Push grow h [x]).1 [y]).2.Len - 1)
    (Slice.elems ((v.Vector.Push grow h [x]).2.Push grow (v.Vector.Push grow h [x]).1 [y]).1
      ((v.Vector.Push grow h [x]).2.Push grow (v.Vector.Push grow h [x]).1 [y]).2.Raw) = [x] by
      rw [e2', l2]; rfl)
  have q1 := ComparableVector.pushPop_of_ok grow h v x _
    (ComparableVector.Pop_of_ok (v.Push grow h [x]).2 _ p1)
  have q2 := ComparableVector.pushPushPopN_of_ok grow h v x y _
    (ComparableVector.PopN_of_ok ((v.Push grow h [x]).2.Push grow (v.Push grow h [x]).1 [y]).2
      1 _ p2)
  constructor
  · rw [q1]
    exact congrArg Except.ok (congrArg (ComparableVector.containsLoop x) he1')
  · rw [q2]
    refine congrArg Except.ok (Prod.ext ?_ ?_)
    · exact (congrArg (ComparableVector.containsLoop x) he2').trans
        (ComparableVector.containsLoop_single x x)
    · exact (congrArg (ComparableVector.containsLoop y) he2').trans
        (ComparableVector.containsLoop_single y x)

/-- Witness of C10, amended: the zero vector with `x = 7` and `y = 8`. -/
theorem ComparableVector.contains_after_pop_witness :
    ComparableVector.pushPop (fun _ n => n) ([] : Heap Nat)
      (ComparableVector.mk (Vector.mk ⟨0, 0, 0, 0⟩)) 7 = .ok false ∧
    ComparableVector.pushPushPopN (fun _ n => n) ([] : Heap Nat)
      (ComparableVector.mk (Vector.mk ⟨0, 0, 0, 0⟩)) 7 8 = .ok (true, false) :=
  ComparableVector.contains_after_pop (fun _ n => n) ([] : Heap Nat)
    (ComparableVector.mk (Vector.mk ⟨0, 0, 0, 0⟩)) 7 8 (by decide) rfl

/-! ## Storage shared between slices -/

namespace Slice

variable {E : Type}

theorem write_nil (a : List E) (i : Nat) : write a i [] = a := by
  simp [write]

theorem take_drop_write (a : List E) (o l : Nat) (es : List E)
    (h : o + l + es.length ≤ a.length) :
    ((write a (o + l) es).drop o).take l = (a.drop o).take l := by
  have h1 := drop_take_write a o l es h
  have h2 : ((a.drop o).take l).length = l := by
    rw [List.length_take, List.length_drop]
    omega
  have h3 : ((write a (o + l) es).drop o).take l =
      (((write a (o + l) es).drop o).take (l + es.length)).take l := by
    rw [List.take_take, Nat.min_eq_left (Nat.le_add_right _ _)]
  rw [h3, h1]
  exact List.take_left' h2

theorem getD_append_left (h : Heap E) (a : List E) (i : Nat) (hi : i < h.length) :
    (h ++ [a]).getD i [] = h.getD i [] := by
  simp [List.getD, List.getElem?_append_left hi]

theorem getD_set_ne (h : Heap E) (i j : Nat) (a : List E) (hne : j ≠ i) :
    (h.set j a).getD i [] = h.getD i [] := by
  simp [List.getD, List.getElem?_set_ne hne]

theorem getD_set_self (h : Heap E) (i : Nat) : (h.set i (h.getD i [])).getD i [] = h.getD i [] := by
  rw [array_set]
  by_cases hi : i < h.length
  · simp [hi]
  · have : h[i]? = none := List.getElem?_eq_none (by omega)
    simp [hi, List.getD, this]

theorem length_append_heap [Inhabited E] (grow : Nat → Nat → Nat) (h : Heap E) (s : Slice E)
    (es : List E) : h.length ≤ (append grow h s es).1.length := by
  unfold append
  split
  · simp
  · simp

/-- The call `append(s, es...)` leaves every array alone that is not the
backing array of `s`; it leaves all arrays alone when `es` is empty. -/
theorem array_append_frame [Inhabited E] (grow : Nat → Nat → Nat) (h : Heap E) (s : Slice E)
    (es : List E) (i : Nat) (hi : i < h.length) (hne : es = [] ∨ s.cap = 0 ∨ s.arr ≠ i) :
    (append grow h s es).1.getD i [] = h.getD i [] := by
  unfold append
  by_cases hc : s.len + es.length ≤ s.cap
  · simp only [hc, if_true]
    have hnil : es = [] ∨ s.arr ≠ i := by
      rcases hne with h1 | h1 | h1
      · exact Or.inl h1
      · left
        apply List.length_eq_zero.1
        omega
      · exact Or.inr h1
    rcases hnil with h1 | h1
    · subst h1
      rw [write_nil]
      by_cases hj : s.arr = i
      · subst hj
        exact getD_set_self h _
      · exact getD_set_ne h i _ _ hj
    · exact getD_set_ne h i _ _ h1
  · simp only [hc, if_false]
    exact getD_append_left h _ i hi

/-- The call `append(s, es...)` leaves the elements of `s` itself as they
were. -/
theorem elems_append_self [Inhabited E] (grow : Nat → Nat → Nat) (h : Heap E) (s : Slice E)
    (es : List E) (hwf : WF h s) : elems (append grow h s es).1 s = elems h s := by
  obtain ⟨h1, h2⟩ := hwf
  by_cases hi : s.arr < h.length
  · unfold append
    by_cases hc : s.len + es.length ≤ s.cap
    · have h2' : s.off + s.cap ≤ (h.getD s.arr []).length := h2
      simp only [hc, if_true, elems, array, array_set, hi]
      exact take_drop_write _ _ _ _ (by omega)
    · simp only [hc, if_false, elems, array]
      rw [getD_append_left h _ _ hi]
  · have ha := array_of_not_lt h s hi
    rw [ha] at h2
    simp only [List.length_nil, Nat.le_zero, Nat.add_eq_zero] at h2
    have hl : s.len = 0 := by omega
    simp [elems, hl]

theorem WF_append_self [Inhabited E] (grow : Nat → Nat → Nat) (h : Heap E) (s : Slice E)
    (es : List E) (hwf : WF h s) : WF (append grow h s es).1 s := by
  obtain ⟨h1, h2⟩ := hwf
  refine ⟨h1, ?_⟩
  by_cases hi : s.arr < h.length
  · unfold append
    by_cases hc : s.len + es.length ≤ s.cap
    · have h2' : s.off + s.cap ≤ (h.getD s.arr []).length := h2
      simp only [hc, if_true, array, array_set, hi]
      rw [length_write _ _ _ (by omega)]
      exact h2
    · simp only [hc, if_false, array]
      rw [getD_append_left h _ _ hi]
      exact h2
  · have ha := array_of_not_lt h s hi
    rw [ha] at h2
    simp only [List.length_nil, Nat.le_zero, Nat.add_eq_zero] at h2
    omega

theorem arr_lt_of_WF {h : Heap E} {s : Slice E} (hwf : WF h s) (hc : s.cap ≠ 0) :
    s.arr < h.length := by
  by_contra hi
  have ha := array_of_not_lt h s hi
  have h2 := hwf.2
  rw [ha] at h2
  simp only [List.length_nil, Nat.le_zero, Nat.add_eq_zero] at h2
  exact hc h2.2

theorem append_alloc [Inhabited E] (grow : Nat → Nat → Nat) (h : Heap E) (s : Slice E)
    (es : List E) (hc : ¬ s.len + es.length ≤ s.cap) :
    (append grow h s es).2.arr = h.length ∧ (append grow h s es).1.length = h.length + 1 := by
  unfold append
  simp [hc]

theorem append_in_place [Inhabited E] (grow : Nat → Nat → Nat) (h : Heap E) (s : Slice E)
    (es : List E) (hc : s.len + es.length ≤ s.cap) :
    (append grow h s es).2.arr = s.arr ∧ (append grow h s es).2.cap = s.cap := by
  unfold append
  simp [hc]

end Slice

namespace Vector

variable {E : Type}

/-- Any sequence of `Append` and `Push` calls on `v` leaves alone the array at
`i`, when `i` is an allocated address that is not the backing array of `v`. -/
theorem runOps_frame [Inhabited E] (grow : Nat → Nat → Nat) (i : Nat) (ops : List (VecOp E)) :
    ∀ (h : Heap E) (v : Vector E), i < h.length → (v.Raw.cap = 0 ∨ v.Raw.arr ≠ i) →
      (v.runOps grow h ops).1.getD i [] = h.getD i [] := by
  induction ops with
  | nil => intro h v _ _; rfl
  | cons op t ih =>
    intro h v hi hne
    have hstep : (Slice.append grow h v.Raw (match op with | .append es => es | .push es => es)).1.getD
        i [] = h.getD i [] := Slice.array_append_frame grow h v.Raw _ i hi (Or.inr hne)
    have hlen := Slice.length_append_heap grow h v.Raw (match op with | .append es => es | .push es => es)
    cases op with
    | append es =>
      simp only [runOps]
      rw [ih (v.Append grow h es).1 v (lt_of_lt_of_le hi hlen) hne]
      exact hstep
    | push es =>
      simp only [runOps]
      have hne' : (v.Push grow h es).2.Raw.cap = 0 ∨ (v.Push grow h es).2.Raw.arr ≠ i := by
        by_cases hc : v.Raw.len + es.length ≤ v.Raw.cap
        · obtain ⟨h1, h2⟩ := Slice.append_in_place grow h v.Raw es hc
          show (Slice.append grow h v.Raw es).2.cap = 0 ∨ (Slice.append grow h v.Raw es).2.arr ≠ i
          rw [h1, h2]
          exact hne
        · obtain ⟨h1, _⟩ := Slice.append_alloc grow h v.Raw es hc
          right
          show (Slice.append grow h v.Raw es).2.arr ≠ i
          rw [h1]
          omega
      rw [ih (v.Push grow h es).1 (v.Push grow h es).2 (lt_of_lt_of_le hi hlen) hne']
      exact hstep

end Vector

/-! ## Claims on `Append`, aliasing and negative `PopN` -/

/-- C11: `v.Append(es...)` on a well-formed vector with contents `xs` returns a
vector whose contents are `xs` followed by `es` in order, of length
`len(xs) + len(es)`, and leaves the receiver with the same length and the same
elements at the indices below it. -/
theorem Vector.append_contents {E : Type} [Inhabited E] (grow : Nat → Nat → Nat) (h : Heap E)
    (v : Vector E) (es : List E) (hwf : Slice.WF h v.Raw) :
    (v.Append grow h es).2.elems (v.Append grow h es).1 = v.elems h ++ es ∧
    (v.Append grow h es).2.Len = v.Len + es.length ∧
    v.elems (v.Append grow h es).1 = v.elems h ∧
    (v.elems (v.Append grow h es).1).length = v.Len ∧
    Slice.WF (v.Append grow h es).1 v.Raw ∧
    Slice.WF (v.Append grow h es).1 (v.Append grow h es).2.Raw := by
  have hself : v.elems (v.Append grow h es).1 = v.elems h :=
    Slice.elems_append_self grow h v.Raw es hwf
  refine ⟨Slice.elems_append grow h v.Raw es hwf, Slice.len_append grow h v.Raw es, hself, ?_,
    Slice.WF_append_self grow h v.Raw es hwf, Slice.WF_append grow h v.Raw es hwf⟩
  rw [hself]
  exact Slice.length_elems hwf

/-- Witness of C11: `Append(3)` on the vector `[1, 2]` of capacity 3, which
stores `3` in the spare slot of the shared backing array. -/
theorem Vector.append_contents_witness :
    ((Vector.mk ⟨0, 0, 2, 3⟩ : Vector Nat).Append (fun c _ => 2 * c) [[1, 2, 9]] [3]).2.elems
      ((Vector.mk ⟨0, 0, 2, 3⟩ : Vector Nat).Append (fun c _ => 2 * c) [[1, 2, 9]] [3]).1
      = [1, 2, 3] ∧
    (Vector.mk ⟨0, 0, 2, 3⟩ : Vector Nat).elems
      ((Vector.mk ⟨0, 0, 2, 3⟩ : Vector Nat).Append (fun c _ => 2 * c) [[1, 2, 9]] [3]).1
      = [1, 2] :=
  ⟨(Vector.append_contents (fun c _ => 2 * c) [[1, 2, 9]] (Vector.mk ⟨0, 0, 2, 3⟩ : Vector Nat)
     [3] (by decide)).1,
   by decide⟩

/-- C18: there is a vector `v` with `Cap() > Len()` and elements `a`, `b`
that differ, such that the value `r1` returned by `v.Append(a)` ends in `a`
and, after a later `v.Append(b)` as after a later `v.Push(b)`, ends in `b`;
whereas for every well-formed `v` with `Cap() == Len()` the value returned by
`v.Append(es...)` with non-empty `es` keeps its contents through every later
sequence of `Append` and `Push` calls on `v`. -/
theorem Vector.append_aliasing {E : Type} [Inhabited E] (grow : Nat → Nat → Nat) :
    (∃ (h : Heap Nat) (v : Vector Nat) (a b : Nat), v.Len < v.Cap ∧ a ≠ b ∧ Slice.WF h v.Raw ∧
      (v.Append grow h [a]).2.elems (v.Append grow h [a]).1 = v.elems h ++ [a] ∧
      (v.Append grow h [a]).2.elems (v.Append grow (v.Append grow h [a]).1 [b]).1
        = v.elems h ++ [b] ∧
      (v.Append grow h [a]).2.elems (v.Push grow (v.Append grow h [a]).1 [b]).1
        = v.elems h ++ [b]) ∧
    (∀ (h : Heap E) (v : Vector E) (es : List E) (ops : List (VecOp E)),
      Slice.WF h v.Raw → v.Cap = v.Len → es ≠ [] →
      (v.Append grow h es).2.elems (v.runOps grow (v.Append grow h es).1 ops).1
        = v.elems h ++ es) := by
  constructor
  · exact ⟨[[1, 0]], Vector.mk ⟨0, 0, 1, 2⟩, 5, 6, by decide, by decide, by decide, rfl, rfl, rfl⟩
  · intro h v es ops hwf hcap hes
    have hlen : 0 < es.length := List.length_pos.2 hes
    have hc : ¬ v.Raw.len + es.length ≤ v.Raw.cap := by
      have : v.Raw.cap = v.Raw.len := hcap
      omega
    obtain ⟨harr, hheap⟩ := Slice.append_alloc grow h v.Raw es hc
    have hne : v.Raw.cap = 0 ∨ v.Raw.arr ≠ (Slice.append grow h v.Raw es).2.arr := by
      by_cases h0 : v.Raw.cap = 0
      · exact Or.inl h0
      · right
        have := Slice.arr_lt_of_WF hwf h0
        omega
    have hframe := Vector.runOps_frame grow (Slice.append grow h v.Raw es).2.arr ops
      (v.Append grow h es).1 v (by
        show (Slice.append grow h v.Raw es).2.arr < (Slice.append grow h v.Raw es).1.length
        omega) hne
    have hbefore : (v.Append grow h es).2.elems (v.Append grow h es).1 = v.elems h ++ es :=
      Slice.elems_append grow h v.Raw es hwf
    rw [← hbefore]
    show Slice.elems _ (Slice.append grow h v.Raw es).2 = Slice.elems _ (Slice.append grow h v.Raw es).2
    unfold Slice.elems Slice.array
    rw [hframe]

/-- Witness of C18: the full vector `[1, 2]`, `Append(3)`, then `Push(4)` and
`Append(5)` on the receiver: the returned value still reads `[1, 2, 3]`. -/
theorem Vector.append_aliasing_witness :
    ((Vector.mk ⟨0, 0, 2, 2⟩ : Vector Nat).Append (fun c _ => 2 * c) [[1, 2]] [3]).2.elems
      ((Vector.mk ⟨0, 0, 2, 2⟩ : Vector Nat).runOps (fun c _ => 2 * c)
        ((Vector.mk ⟨0, 0, 2, 2⟩ : Vector Nat).Append (fun c _ => 2 * c) [[1, 2]] [3]).1
        [VecOp.push [4], VecOp.append [5]]).1
      = [1, 2] ++ [3] :=
  (Vector.append_aliasing (fun c _ => 2 * c)).2 [[1, 2]] (Vector.mk ⟨0, 0, 2, 2⟩) [3]
    [VecOp.push [4], VecOp.append [5]] (by decide) rfl (by decide)

namespace Vector

variable {E : Type}

theorem PopN_to (v : Vector E) (n : Int) (k : Nat)
    (hk : wrapInt64 ((v.Len : Int) - n) = (k : Int)) (hcap : k ≤ v.Cap) :
    v.PopN n = .ok { Raw := { v.Raw with len := k } } := by
  unfold PopN
  rw [hk, Slice.sliceTo_of_le _ _ hcap]

theorem PopN_above_cap (v : Vector E) (n : Int) (hn : n < 0) (hmin : -2 ^ 63 ≤ n)
    (hlen : (v.Len : Int) < 2 ^ 63) (hcap : (v.Cap : Int) < (v.Len : Int) - n) :
    v.PopN n = .error .sliceBounds := by
  have hb : ¬ (0 ≤ wrapInt64 ((v.Len : Int) - n) ∧ wrapInt64 ((v.Len : Int) - n) ≤ (v.Raw.cap : Int)) := by
    have hc : (v.Raw.cap : Int) < (v.Len : Int) - n := hcap
    unfold wrapInt64
    omega
  unfold PopN Slice.sliceTo
  simp only [hb, if_false]

end Vector

theorem bind_ok_eq {α β : Type} (a : α) (f : α → Except Fault β) :
    (Except.ok a : Except Fault α).bind f = f a := rfl

theorem ComparableVector.pushPopPopNeg_of_ok {E : Type} [Inhabited E] [GoEq E]
    (grow : Nat → Nat → Nat) (h : Heap E) (v : ComparableVector E) (x : E)
    (v2 v3 : ComparableVector E) (hp : (v.Push grow h [x]).2.Pop = .ok v2)
    (hq : v2.PopN (-1) = .ok v3) :
    v.pushPopPopNeg grow h x = .ok (v3.Len, (v3.Contains (v.Push grow h [x]).1 x).1) := by
  unfold ComparableVector.pushPopPopNeg
  rw [hp, bind_ok_eq, hq, bind_ok_eq]

/-- C19: `PopN` does not reject a negative argument.  For `n < 0` (a Go `int`)
on a vector whose length and capacity are in the range of `int`: when
`Len() - n <= Cap()`, `PopN(n)` returns, `Len()` has grown by `|n|` and the
contents are the first `Len() + |n|` elements of the backing storage from the
offset of the vector on, the old contents first; when `Len() - n > Cap()` it
panics.  `Pop` and `PopN` never change `Cap()`.  On an empty well-formed
`ComparableVector`, `Push(x); Pop(); PopN(-1)` leaves `Len() == 1` and the
vector reading `[x]`, so that `Contains(x)` returns the value of `x == x`:
true for every `x` equal to itself, as in the example of the claim. -/
theorem Vector.popN_negative {E : Type} [Inhabited E] [GoEq E] (grow : Nat → Nat → Nat)
    (h : Heap E) (v : Vector E) (n : Int) (hn : n < 0) (hmin : -2 ^ 63 ≤ n)
    (hlen : (v.Len : Int) < 2 ^ 63) (hcap : (v.Cap : Int) < 2 ^ 63) :
    ((v.Len : Int) - n ≤ v.Cap → ∃ v', v.PopN n = .ok v' ∧ v'.Len = v.Len + n.natAbs ∧
      v'.elems h = ((Slice.array h v.Raw).drop v.Raw.off).take (v.Len + n.natAbs) ∧
      (v'.elems h).take v.Len = v.elems h) ∧
    ((v.Cap : Int) < (v.Len : Int) - n → v.PopN n = .error .sliceBounds) ∧
    (∀ (m : Int) (v' : Vector E), v.PopN m = .ok v' → v'.Cap = v.Cap) ∧
    (∀ v' : Vector E, v.Pop = .ok v' → v'.Cap = v.Cap) ∧
    (∀ (c : ComparableVector E) (x : E), c.Len = 0 → Slice.WF h c.Vector.Raw →
      c.pushPopPopNeg grow h x = .ok (1, GoEq.eq x x)) := by
  have hcapinv : ∀ (m : Int) (v' : Vector E), v.PopN m = .ok v' → v'.Cap = v.Cap := by
    intro m v' hp
    obtain ⟨_, _, rfl⟩ := Vector.PopN_ok_inv v v' m hp
    rfl
  refine ⟨?_, Vector.PopN_above_cap v n hn hmin hlen, hcapinv, fun v' hp => hcapinv 1 v' hp, ?_⟩
  · intro hfit
    have hk : wrapInt64 ((v.Len : Int) - n) = ((v.Len + n.natAbs : Nat) : Int) := by
      rw [wrapInt64_of_range _ (by omega) (by omega)]
      omega
    refine ⟨_, Vector.PopN_to v n (v.Len + n.natAbs) hk (by omega), rfl, rfl, ?_⟩
    show List.take v.Raw.len (List.take (v.Raw.len + n.natAbs) _) = List.take v.Raw.len _
    rw [List.take_take, Nat.min_eq_left (Nat.le_add_right _ _)]
    rfl
  · intro c x hempty hwf
    have hempty' : c.Vector.Len = 0 := hempty
    have e1 : Slice.elems (c.Vector.Push grow h [x]).1 (c.Vector.Push grow h [x]).2.Raw
        = c.Vector.elems h ++ [x] := Vector.elems_Push grow h c.Vector [x] hwf
    have hv0 : c.Vector.elems h = [] :=
      List.length_eq_zero.1 ((Slice.length_elems hwf).trans hempty')
    rw [hv0, List.nil_append] at e1
    have l1 : (c.Vector.Push grow h [x]).2.Len = 1 := by
      rw [Vector.Len_Push, hempty']
      rfl
    have w1 := Vector.WF_Push grow h c.Vector [x] hwf
    have p1 : (c.Vector.Push grow h [x]).2.Pop = .ok
        { Raw := { (c.Vector.Push grow h [x]).2.Raw with
          len := (c.Vector.Push grow h [x]).2.Len - 1 } } :=
      Vector.PopN_of_nat _ 1 (by omega) w1.1 (by rw [l1]; simp)
    have hc1 : 1 ≤ (c.Vector.Push grow h [x]).2.Raw.cap := by
      have := w1.1
      have hl : (c.Vector.Push grow h [x]).2.Raw.len = 1 := l1
      omega
    have p2 : (Vector.mk { (c.Vector.Push grow h [x]).2.Raw with
          len := (c.Vector.Push grow h [x]).2.Len - 1 } : Vector E).PopN (-1) = .ok
        { Raw := { (c.Vector.Push grow h [x]).2.Raw with len := 1 } } := by
      have hk : wrapInt64 ((((c.Vector.Push grow h [x]).2.Len - 1 : Nat) : Int) - (-1))
          = ((1 : Nat) : Int) := by
        rw [l1, wrapInt64_of_range _ (by omega) (by omega)]
        omega
      exact Vector.PopN_to _ (-1) 1 hk hc1
    rw [ComparableVector.pushPopPopNeg_of_ok grow h c x _ _
      (ComparableVector.Pop_of_ok (c.Push grow h [x]).2 _ p1)
      (ComparableVector.PopN_of_ok _ (-1) _ p2)]
    have hsame : Slice.elems (c.Vector.Push grow h [x]).1
        { (c.Vector.Push grow h [x]).2.Raw with len := 1 } =
        Slice.elems (c.Vector.Push grow h [x]).1 (c.Vector.Push grow h [x]).2.Raw := by
      have hl : (c.Vector.Push grow h [x]).2.Raw.len = 1 := l1
      show List.take 1 _ = List.take (c.Vector.Push grow h [x]).2.Raw.len _
      rw [hl]
      rfl
    have he := hsame.trans e1
    refine congrArg Except.ok (Prod.ext rfl ?_)
    exact (congrArg (ComparableVector.containsLoop x) he).trans
      (ComparableVector.containsLoop_single x x)

/-- Witness of C19: `PopN(-1)` on the vector `[1]` of capacity 3 over the array
`[1, 8, 9]` re-exposes `8`; on the zero `ComparableVector`,
`Push(7); Pop(); PopN(-1)` leaves length 1 and `Contains(7)` true. -/
theorem Vector.popN_negative_witness :
    (∃ v', (Vector.mk ⟨0, 0, 1, 3⟩ : Vector Nat).PopN (-1) = .ok v' ∧
      v'.elems [[1, 8, 9]] = [1, 8]) ∧
    ComparableVector.pushPopPopNeg (fun _ n => n) ([] : Heap Nat)
      (ComparableVector.mk (Vector.mk ⟨0, 0, 0, 0⟩)) 7 = .ok (1, true) :=
  ⟨(let ⟨v', h1, _, h2, _⟩ := (Vector.popN_negative (fun _ n => n) [[1, 8, 9]]
      (Vector.mk ⟨0, 0, 1, 3⟩ : Vector Nat) (-1) (by decide) (by decide) (by decide)
      (by decide)).1 (by decide)
    ⟨v', h1, h2⟩),
   (Vector.popN_negative (fun _ n => n) ([] : Heap Nat)
      (Vector.mk ⟨0, 0, 0, 0⟩ : Vector Nat) (-1) (by decide) (by decide) (by decide)
      (by decide)).2.2.2.2 (ComparableVector.mk (Vector.mk ⟨0, 0, 0, 0⟩)) 7 rfl (by decide)⟩

/-! ## Lemmas on the helpers on raw maps -/

theorem valuesLoop_eq {K V : Type} (l : List (K × V)) :
    ∀ (done rest : List V), rest.length = l.length →
      valuesLoop l (done ++ rest) done.length = .ok (done ++ l.map Prod.snd) := by
  induction l with
  | nil =>
    intro done rest h
    have : rest = [] := List.length_eq_zero.1 h
    simp [valuesLoop, this]
  | cons p t ih =>
    intro done rest h
    obtain ⟨k, v⟩ := p
    cases rest with
    | nil => simp at h
    | cons r rs =>
      have hlt : done.length < (done ++ r :: rs).length := by simp
      have hset : (done ++ r :: rs).set done.length v = (done ++ [v]) ++ rs := by
        simp [List.set_append_right]
      simp only [valuesLoop, hlt, if_true, hset]
      have := ih (done ++ [v]) rs (by simpa using h)
      simpa using this

theorem RawMap.findEntry_eq_none_of_find {K V : Type} [GoEq K] (k : K) (l : List (K × V))
    (h : RawMap.find k l = none) : RawMap.findEntry k l = none := by
  rw [RawMap.find_eq_findEntry] at h
  cases hf : RawMap.findEntry k l with
  | none => rfl
  | some p =>
    rw [hf] at h
    cases h

theorem mergeLoop_some {K V : Type} [GoEq K] (es : List (K × V)) :
    ∀ l : List (K × V), (es.map Prod.fst).Pairwise (fun a b => GoEq.eq a b = false) →
      ∃ l', mergeLoop es (some l) = .ok (some l') ∧
        (∀ k, RawMap.findEntry k l' = match RawMap.findEntry k es with
          | some p => some p
          | none => RawMap.findEntry k l) ∧
        ((l.map Prod.fst).Pairwise (fun a b => GoEq.eq a b = false) →
          (l'.map Prod.fst).Pairwise (fun a b => GoEq.eq a b = false)) := by
  induction es with
  | nil => intro l _; exact ⟨l, rfl, fun k => rfl, fun h => h⟩
  | cons p t ih =>
    intro l hn
    obtain ⟨k0, v0⟩ := p
    simp only [List.map_cons, List.pairwise_cons] at hn
    obtain ⟨l', h1, h2, h3⟩ := ih (RawMap.insert k0 v0 l) hn.2
    refine ⟨l', ?_, ?_, fun h => h3 (RawMap.insert_WF k0 v0 l h)⟩
    · simp only [mergeLoop, RawMap.assign]
      exact h1
    · intro k
      rw [h2 k]
      cases hk : GoEq.eq k0 k with
      | true =>
        have ht := RawMap.findEntry_eq_none_of_find k t (RawMap.find_tail_none_of_head hk hn.1)
        simp only [RawMap.findEntry, hk, if_true, ht, RawMap.findEntry_insert_eq hk]
      | false =>
        simp only [RawMap.findEntry, hk, Bool.false_eq_true, if_false,
          RawMap.findEntry_insert_ne hk]

theorem mergeLoop_find {K V : Type} [GoEq K] (es l l' : List (K × V))
    (h : ∀ k, RawMap.findEntry k l' = match RawMap.findEntry k es with
      | some p => some p
      | none => RawMap.findEntry k l) (k : K) :
    RawMap.find k l' = match RawMap.find k es with
      | some v => some v
      | none => RawMap.find k l := by
  rw [RawMap.find_eq_findEntry, RawMap.find_eq_findEntry, RawMap.find_eq_findEntry, h k]
  cases RawMap.findEntry k es <;> rfl

theorem mergeLoop_fixed {K V : Type} [GoEq K] (es : List (K × V)) :
    ∀ l : List (K × V), (∀ k v, (k, v) ∈ es → RawMap.findEntry k l = some (k, v)) →
      mergeLoop es (some l) = .ok (some l) := by
  induction es with
  | nil => intro l _; rfl
  | cons p t ih =>
    intro l h
    obtain ⟨k0, v0⟩ := p
    have h0 := RawMap.insert_of_findEntry k0 v0 l (h k0 v0 (List.mem_cons_self _ _))
    simp only [mergeLoop, RawMap.assign, h0]
    exact ih l (fun k v hm => h k v (List.mem_cons_of_mem _ hm))

theorem mergeLoop_nil_target {K V : Type} [GoEq K] (es : List (K × V)) (h : es ≠ []) :
    mergeLoop es (none : RawMap K V) = .error .nilMapAssign := by
  cases es with
  | nil => exact absurd rfl h
  | cons p t =>
    obtain ⟨k0, v0⟩ := p
    simp [mergeLoop, RawMap.assign]

/-! ## Claims on the helpers on raw maps -/

/-- C12: in whatever order the runtime ranges over the map, `ValuesOfRawMap(m)`
returns without a panic a slice whose length is the number of entries of `m`
and whose elements are, up to order, the values of the entries of `m`, one per
entry; for a nil or empty map the slice is empty. -/
theorem ValuesOfRawMap_values {K V : Type} [Inhabited V] (ro : RangeOrder (K × V))
    (m : RawMap K V) :
    ∃ vs, ValuesOfRawMap ro m = .ok vs ∧ vs.length = RawMap.len m ∧
      vs.Perm ((RawMap.entries m).map Prod.snd) ∧
      (RawMap.len m = 0 → vs = []) ∧
      ValuesOfRawMap ro (none : RawMap K V) = .ok [] ∧
      ValuesOfRawMap ro (some [] : RawMap K V) = .ok [] := by
  have hlen : ∀ m' : RawMap K V,
      (List.replicate (RawMap.len m') (default : V)).length =
        (ro.order (RawMap.entries m')).length := by
    intro m'
    rw [List.length_replicate, (ro.perm _).length_eq]
    rfl
  have hrun : ∀ m' : RawMap K V,
      ValuesOfRawMap ro m' = .ok ((ro.order (RawMap.entries m')).map Prod.snd) := by
    intro m'
    have := valuesLoop_eq (ro.order (RawMap.entries m')) [] _ (hlen m')
    simpa [ValuesOfRawMap] using this
  have hempty : ro.order ([] : List (K × V)) = [] := List.Perm.eq_nil (ro.perm [])
  refine ⟨_, hrun m, ?_, (ro.perm _).map Prod.snd, ?_, ?_, ?_⟩
  · rw [List.length_map, (ro.perm _).length_eq]
    rfl
  · intro h0
    have he : RawMap.entries m = [] := List.length_eq_zero.1 h0
    rw [he, hempty]
    rfl
  · rw [hrun]
    show Except.ok ((ro.order []).map Prod.snd) = _
    rw [hempty]
    rfl
  · rw [hrun]
    show Except.ok ((ro.order []).map Prod.snd) = _
    rw [hempty]
    rfl

/-- Counterexample to C13 as stated: with `float64` keys, `set` the map with
the entry `(2, 2)` and `subset` the map with the entries `(NaN, 1)` and
`(2, 20)`, one `MergeRawMap(set, subset)` leaves `set` with two entries and a
second one leaves it with three: the merge is not idempotent. -/
theorem MergeRawMap_twice_nan :
    RawMap.WF (some [(Float64.nan, 1), (Float64.num 2, 20)] : RawMap Float64 Nat) ∧
    MergeRawMap (RangeOrder.stored _) (some [(Float64.num 2, 2)])
        (some [(Float64.nan, 1), (Float64.num 2, 20)] : RawMap Float64 Nat)
      = .ok (some [(Float64.num 2, 20), (Float64.nan, 1)],
          some [(Float64.nan, 1), (Float64.num 2, 20)]) ∧
    MergeRawMap (RangeOrder.stored _) (some [(Float64.num 2, 20), (Float64.nan, 1)])
        (some [(Float64.nan, 1), (Float64.num 2, 20)] : RawMap Float64 Nat)
      = .ok (some [(Float64.num 2, 20), (Float64.nan, 1), (Float64.nan, 1)],
          some [(Float64.nan, 1), (Float64.num 2, 20)]) :=
  ⟨by decide, rfl, rfl⟩

/-- C13, amended: for an initialized map `set` and a map `subset` with unique
keys, in whatever order the runtime ranges over `subset`,
`MergeRawMap(set, subset)` returns without a panic; afterwards `set[k]` is
`subset[k]` for every key present in `subset`, the entry of every key absent
from `subset` is as before in `set` (presence and value), `subset` is as
before, and the keys of `set` are still unique; when every key of `subset` is
equal to itself, a second `MergeRawMap(set, subset)` leaves `set` exactly as
the first one did, and a merge of a map with its own contents leaves it as it
was. -/
theorem MergeRawMap_overwrites {K V : Type} [GoEq K] [Inhabited V]
    (ro : RangeOrder (K × V)) (l : List (K × V)) (subset : RawMap K V)
    (hsub : RawMap.WF subset) :
    ∃ l', MergeRawMap ro (some l) subset = .ok (some l', subset) ∧
      (∀ k, (RawMap.lookup subset k).2 = true →
        RawMap.lookup (some l') k = RawMap.lookup subset k) ∧
      (∀ k, (RawMap.lookup subset k).2 = false →
        RawMap.lookup (some l') k = RawMap.lookup (some l) k) ∧
      (RawMap.WF (some l) → RawMap.WF (some l')) ∧
      ((∀ k ∈ (RawMap.entries subset).map Prod.fst, GoEq.eq k k = true) →
        ∀ ro2 : RangeOrder (K × V), MergeRawMap ro2 (some l') subset = .ok (some l', subset)) ∧
      ((∀ k ∈ (RawMap.entries subset).map Prod.fst, GoEq.eq k k = true) →
        subset = some l → l' = l) := by
  have hn : ((ro.order (RawMap.entries subset)).map Prod.fst).Pairwise
      (fun a b => GoEq.eq a b = false) :=
    RawMap.pairwise_perm ((ro.perm _).map Prod.fst) hsub
  obtain ⟨l', h1, h2, h3⟩ := mergeLoop_some (ro.order (RawMap.entries subset)) l hn
  have hfind : ∀ k, RawMap.find k l' = match RawMap.find k (RawMap.entries subset) with
      | some v => some v
      | none => RawMap.find k l := by
    intro k
    rw [mergeLoop_find _ _ _ h2 k, RawMap.find_perm k (ro.perm _) hsub]
  have hmem : (∀ k ∈ (RawMap.entries subset).map Prod.fst, GoEq.eq k k = true) →
      ∀ (ro' : RangeOrder (K × V)) (k : K) (v : V),
        (k, v) ∈ ro'.order (RawMap.entries subset) → RawMap.findEntry k l' = some (k, v) := by
    intro hrefl ro' k v hm
    have hm0 : (k, v) ∈ RawMap.entries subset := (ro'.perm _).mem_iff.1 hm
    have hm' : (k, v) ∈ ro.order (RawMap.entries subset) := (ro.perm _).mem_iff.2 hm0
    have hkk : GoEq.eq k k = true := hrefl k (List.mem_map_of_mem Prod.fst hm0)
    rw [h2 k, (RawMap.findEntry_eq_some_iff k (k, v) _ hn).2 ⟨hm', hkk⟩]
  refine ⟨l', ?_, ?_, ?_, h3, ?_, ?_⟩
  · simp only [MergeRawMap, h1]
  · intro k hk
    simp only [RawMap.lookup, RawMap.entries] at hk ⊢
    rw [hfind k]
    cases hf : RawMap.find k (RawMap.entries subset) with
    | none =>
      simp only [RawMap.entries] at hf
      rw [hf] at hk
      cases hk
    | some v =>
      simp only [RawMap.entries] at hf
      rw [hf]
  · intro k hk
    simp only [RawMap.lookup, RawMap.entries] at hk ⊢
    rw [hfind k]
    cases hf : RawMap.find k (RawMap.entries subset) with
    | none => rfl
    | some v =>
      simp only [RawMap.entries] at hf
      rw [hf] at hk
      cases hk
  · intro hrefl ro2
    simp only [MergeRawMap, mergeLoop_fixed _ l' (hmem hrefl ro2)]
  · intro hrefl hsame
    subst hsame
    have hfix : ∀ k v, (k, v) ∈ ro.order l → RawMap.findEntry k l = some (k, v) := by
      intro k v hm
      have hm0 : (k, v) ∈ l := (ro.perm l).mem_iff.1 hm
      exact (RawMap.findEntry_eq_some_iff k (k, v) l hsub).2
        ⟨hm0, hrefl k (List.mem_map_of_mem Prod.fst hm0)⟩
    have h1' : mergeLoop (ro.order l) (some l) = .ok (some l') := h1
    rw [mergeLoop_fixed _ l hfix] at h1'
    injection h1' with h1'
    injection h1' with h1'
    exact h1'.symm

/-- Witness of C13, amended: the map with the entries `(1, 10)` and `(2, 20)`
merged with the map with the entries `(2, 21)` and `(3, 30)`, ranged in
reverse. -/
theorem MergeRawMap_overwrites_witness :
    RawMap.WF (some [(2, 21), (3, 30)] : RawMap Nat Nat) ∧
    ∃ l', MergeRawMap (RangeOrder.reversed _) (some [(1, 10), (2, 20)])
        (some [(2, 21), (3, 30)] : RawMap Nat Nat) = .ok (some l', some [(2, 21), (3, 30)]) ∧
      RawMap.lookup (some l') 2 = (21, true) :=
  ⟨by decide,
   let ⟨l', h1, h2, _⟩ := MergeRawMap_overwrites (RangeOrder.reversed _) [(1, 10), (2, 20)]
     (some [(2, 21), (3, 30)] : RawMap Nat Nat) (by decide)
   ⟨l', h1, h2 2 rfl⟩⟩

/-- C20: in whatever order the runtime ranges over `subset`,
`MergeRawMap(set, subset)` with a nil `set` panics exactly when `subset` has at
least one entry, and the panic is the one of assigning to a nil map; with a nil
or empty `subset` it returns and leaves `set` as it was, whatever `set` is;
whereas `Map.Set` on a nil store allocates and returns. -/
theorem MergeRawMap_nil_set {K V : Type} [GoEq K] (ro : RangeOrder (K × V))
    (set subset : RawMap K V) :
    ((∃ f, MergeRawMap ro (none : RawMap K V) subset = .error f) ↔ 0 < RawMap.len subset) ∧
    (0 < RawMap.len subset →
      MergeRawMap ro (none : RawMap K V) subset = .error .nilMapAssign) ∧
    (RawMap.len subset = 0 → MergeRawMap ro set subset = .ok (set, subset)) ∧
    (∀ (k : K) (v : V), ∃ m, (Map.mk (none : RawMap K V)).Set k v = .ok m) := by
  have hzero : RawMap.len subset = 0 → ∀ s : RawMap K V,
      MergeRawMap ro s subset = .ok (s, subset) := by
    intro h0 s
    have he : RawMap.entries subset = [] := List.length_eq_zero.1 h0
    have ho : ro.order (RawMap.entries subset) = [] := by
      rw [he]
      exact List.Perm.eq_nil (ro.perm [])
    simp only [MergeRawMap, ho, mergeLoop]
  have hpos : 0 < RawMap.len subset →
      MergeRawMap ro (none : RawMap K V) subset = .error .nilMapAssign := by
    intro hp
    have hne : ro.order (RawMap.entries subset) ≠ [] := by
      intro h
      have := (ro.perm (RawMap.entries subset)).length_eq
      rw [h] at this
      have hl : RawMap.len subset = (RawMap.entries subset).length := rfl
      simp only [List.length_nil] at this
      omega
    simp only [MergeRawMap, mergeLoop_nil_target _ hne]
  refine ⟨⟨?_, fun hp => ⟨_, hpos hp⟩⟩, hpos, fun h0 => hzero h0 set,
    fun k v => ⟨_, Map.Set_eq _ k v⟩⟩
  rintro ⟨f, hf⟩
  by_contra hn
  rw [hzero (by omega) none] at hf
  cases hf

/-- Witness of C20: a nil target with the one-entry map `(1, 10)` panics; a nil
target with an empty map returns. -/
theorem MergeRawMap_nil_set_witness :
    MergeRawMap (RangeOrder.stored _) (none : RawMap Nat Nat) (some [(1, 10)])
      = .error .nilMapAssign ∧
    MergeRawMap (RangeOrder.stored _) (none : RawMap Nat Nat) (some [])
      = .ok (none, some []) :=
  ⟨(MergeRawMap_nil_set (RangeOrder.stored _) (none : RawMap Nat Nat) (some [(1, 10)])).2.1
     (by decide),
   (MergeRawMap_nil_set (RangeOrder.stored _) (none : RawMap Nat Nat) (some [])).2.2.1 rfl⟩

/-! ## Lemmas on the guarded containers -/

namespace RWMutex

/-- A read-lock cycle on a free lock: `RLock`, an event, the deferred
`RUnlock`, then the rest of the method. -/
theorem rlock_cycle {β : Type} (mu : RWMutex) (hf : mu.Free) (e : Event)
    (k : RWMutex → Except Fault β) :
    (mu.RLock.bind fun mu1 => ((mu1.note e).RUnlock).bind k) =
      k ⟨0, false, mu.history ++ [.rlock, e, .runlock]⟩ := by
  obtain ⟨r, w, hist⟩ := mu
  obtain ⟨h1, h2⟩ := hf
  simp only at h1 h2
  subst h1
  subst h2
  simp [RLock, RUnlock, note, Except.bind]

/-- A write-lock cycle on a free lock: `Lock`, an event, the deferred `Unlock`,
then the rest of the method. -/
theorem lock_cycle {β : Type} (mu : RWMutex) (hf : mu.Free) (e : Event)
    (k : RWMutex → Except Fault β) :
    (mu.Lock.bind fun mu1 => ((mu1.note e).Unlock).bind k) =
      k ⟨0, false, mu.history ++ [.lock, e, .unlock]⟩ := by
  obtain ⟨r, w, hist⟩ := mu
  obtain ⟨h1, h2⟩ := hf
  simp only at h1 h2
  subst h1
  subst h2
  simp [Lock, Unlock, note, Except.bind]

theorem lock_cycle_after {α β : Type} (mu : RWMutex) (hf : mu.Free) (e : Event) (a : α)
    (k : α → RWMutex → Except Fault β) :
    (mu.Lock.bind fun mu1 => (Except.ok a : Except Fault α).bind fun x =>
      ((mu1.note e).Unlock).bind (k x)) =
      k a ⟨0, false, mu.history ++ [.lock, e, .unlock]⟩ := by
  obtain ⟨r, w, hist⟩ := mu
  obtain ⟨h1, h2⟩ := hf
  simp only at h1 h2
  subst h1
  subst h2
  simp [Lock, Unlock, note, Except.bind]

end RWMutex

namespace SyncMap

variable {K V : Type}

theorem Do_eq {σ : Type} (s : SyncMap K V) (f : Map K V → σ → Map K V × σ) (c : σ)
    (hf : s.RWMutex.Free) :
    s.Do f c = .ok (⟨(f s.It c).1, ⟨0, false, s.RWMutex.history ++ [.rlock, .read, .runlock]⟩⟩, (f s.It c).2) := by
  unfold Do
  rw [RWMutex.rlock_cycle _ hf]

theorem Get_eq_of_free [GoEq K] [Inhabited V] (s : SyncMap K V) (k : K) (hf : s.RWMutex.Free) :
    s.Get k = .ok (s.It.Get k, ⟨s.It, ⟨0, false, s.RWMutex.history ++ [.rlock, .read, .runlock]⟩⟩) := by
  unfold Get
  rw [RWMutex.rlock_cycle _ hf]

theorem Foreach_eq {σ ε : Type} (ro : RangeOrder (K × V)) (s : SyncMap K V)
    (f : K → V → σ → σ × Option ε) (c : σ) (hf : s.RWMutex.Free) :
    s.Foreach ro f c = .ok (⟨(s.It.Foreach ro f c).1, ⟨0, false, s.RWMutex.history ++ [.rlock, .read, .runlock]⟩⟩,
      (s.It.Foreach ro f c).2) := by
  unfold Foreach
  rw [RWMutex.rlock_cycle _ hf]

theorem DoMut_eq {σ : Type} (s : SyncMap K V) (f : Map K V → σ → Map K V × σ) (c : σ)
    (hf : s.RWMutex.Free) :
    s.DoMut f c = .ok (⟨(f s.It c).1, ⟨0, false, s.RWMutex.history ++ [.lock, .write, .unlock]⟩⟩, (f s.It c).2) := by
  unfold DoMut
  rw [RWMutex.lock_cycle _ hf]

theorem Delete_eq [GoEq K] (s : SyncMap K V) (k : K) (hf : s.RWMutex.Free) :
    s.Delete k = .ok ⟨s.It.Delete k, ⟨0, false, s.RWMutex.history ++ [.lock, .write, .unlock]⟩⟩ := by
  unfold Delete
  rw [RWMutex.lock_cycle _ hf]

theorem Set_eq_of_free [GoEq K] (s : SyncMap K V) (k : K) (v : V)
    (hf : s.RWMutex.Free) :
    s.Set k v = .ok ⟨{ Raw := some (RawMap.insert k v (RawMap.entries s.It.Raw)) }, ⟨0, false, s.RWMutex.history ++ [.lock, .write, .unlock]⟩⟩ := by
  unfold Set
  rw [Map.Set_eq, RWMutex.lock_cycle_after _ hf]

end SyncMap

namespace SyncVector

variable {E : Type}

theorem Do_eq_of_free {σ : Type} (h : Heap E) (v : SyncVector E)
    (f : Heap E → Vector E → σ → Heap E × Vector E × σ) (c : σ) (hf : v.RWMutex.Free) :
    v.Do h f c = .ok ((f h v.It c).1,
      ⟨(f h v.It c).2.1, ⟨0, false, v.RWMutex.history ++ [.rlock, .read, .runlock]⟩⟩,
      (f h v.It c).2.2) := by
  unfold Do
  rw [RWMutex.rlock_cycle _ hf]

theorem Append_eq [Inhabited E] (grow : Nat → Nat → Nat) (h : Heap E) (v : SyncVector E)
    (e : List E) (hf : v.RWMutex.Free) :
    v.Append grow h e = .ok ((v.It.Append grow h e).1, (v.It.Append grow h e).2,
      ⟨v.It, ⟨0, false, v.RWMutex.history ++ [.rlock, .read, .runlock]⟩⟩) := by
  unfold Append
  rw [RWMutex.rlock_cycle _ hf]

theorem DoMut_eq_of_free {σ : Type} (h : Heap E) (v : SyncVector E)
    (f : Heap E → Vector E → σ → Heap E × Vector E × σ) (c : σ) (hf : v.RWMutex.Free) :
    v.DoMut h f c = .ok ((f h v.It c).1,
      ⟨(f h v.It c).2.1, ⟨0, false, v.RWMutex.history ++ [.lock, .write, .unlock]⟩⟩,
      (f h v.It c).2.2) := by
  unfold DoMut
  rw [RWMutex.lock_cycle _ hf]

theorem Push_eq [Inhabited E] (grow : Nat → Nat → Nat) (h : Heap E) (v : SyncVector E)
    (e : List E) (hf : v.RWMutex.Free) :
    v.Push grow h e = .ok ((v.It.Push grow h e).1, ⟨(v.It.Push grow h e).2, ⟨0, false, v.RWMutex.history ++ [.lock, .write, .unlock]⟩⟩) := by
  unfold Push
  rw [RWMutex.lock_cycle _ hf]

end SyncVector

theorem SyncComparableVector.Contains_eq {E : Type} [GoEq E] (h : Heap E)
    (a : SyncComparableVector E) (e : E) (hf : a.lock.Free) :
    a.Contains h e = .ok ((a.ComparableVector.Contains h e).1,
      ⟨(a.ComparableVector.Contains h e).2, ⟨0, false, a.lock.history ++ [.rlock, .read, .runlock]⟩⟩) := by
  unfold SyncComparableVector.Contains
  rw [RWMutex.rlock_cycle _ hf]

/-! ## Claims on the guarded containers -/

/-- C14: run with the lock free, each guarded convenience operation returns the
results of the plain operation on the wrapped container and leaves the wrapped
container as the plain operation does: `SyncMap.Get`, `Set`, `Delete` and
`Foreach` (same visitor state, same returned error), `SyncVector.Append` and
`Push`, and `SyncComparableVector.Contains`. -/
theorem guarded_refines_plain {K V E σ ε : Type} [GoEq K] [Inhabited V] [Inhabited E]
    [GoEq E] (sm : SyncMap K V) (sv : SyncVector E) (sc : SyncComparableVector E)
    (k : K) (v : V) (ro : RangeOrder (K × V)) (f : K → V → σ → σ × Option ε) (c : σ)
    (grow : Nat → Nat → Nat) (h : Heap E) (es : List E) (e : E)
    (hm : sm.RWMutex.Free) (hv : sv.RWMutex.Free) (hc : sc.lock.Free) :
    (sm.Get k).map (fun r => (r.1, r.2.It)) = .ok (sm.It.Get k, sm.It) ∧
    (sm.Set k v).map (fun r => r.It) = sm.It.Set k v ∧
    (sm.Delete k).map (fun r => r.It) = .ok (sm.It.Delete k) ∧
    (sm.Foreach ro f c).map (fun r => (r.1.It, r.2)) = .ok (sm.It.Foreach ro f c) ∧
    (sv.Append grow h es).map (fun r => (r.1, r.2.1, r.2.2.It)) =
      .ok ((sv.It.Append grow h es).1, (sv.It.Append grow h es).2, sv.It) ∧
    (sv.Push grow h es).map (fun r => (r.1, r.2.It)) = .ok (sv.It.Push grow h es) ∧
    (sc.Contains h e).map (fun r => (r.1, r.2.ComparableVector)) =
      .ok (sc.ComparableVector.Contains h e) := by
  refine ⟨?_, ?_, ?_, ?_, ?_, ?_, ?_⟩
  · rw [SyncMap.Get_eq_of_free sm k hm]
    rfl
  · rw [SyncMap.Set_eq_of_free sm k v hm, Map.Set_eq]
    rfl
  · rw [SyncMap.Delete_eq sm k hm]
    rfl
  · rw [SyncMap.Foreach_eq ro sm f c hm]
    rfl
  · rw [SyncVector.Append_eq grow h sv es hv]
    rfl
  · rw [SyncVector.Push_eq grow h sv es hv]
    rfl
  · rw [SyncComparableVector.Contains_eq h sc e hc]
    rfl

/-- Witness of C14: `SyncMap.Set(2, 21)` on the wrapped map with the entries
`(1, 10)` and `(2, 20)` and a free lock gives the map of the plain `Set`. -/
theorem guarded_refines_plain_witness :
    ((SyncMap.mk (Map.mk (some [(1, 10), (2, 20)])) ⟨0, false, []⟩ : SyncMap Nat Nat).Set
      2 21).map (fun r => r.It) = .ok (Map.mk (some [(1, 10), (2, 21)])) :=
  (guarded_refines_plain (SyncMap.mk (Map.mk (some [(1, 10), (2, 20)])) ⟨0, false, []⟩)
    (SyncVector.mk (Vector.mk ⟨0, 0, 0, 0⟩) ⟨0, false, []⟩ : SyncVector Nat)
    (SyncComparableVector.mk (ComparableVector.mk (Vector.mk ⟨0, 0, 0, 0⟩)) ⟨0, false, []⟩)
    2 21 (RangeOrder.stored _) (fun _ _ (n : Nat) => (n + 1, (none : Option Nat))) 0
    (fun _ n => n) [] [] 0 (by decide) (by decide) (by decide)).2.1

/-- C15: every guarded operation started with the lock free returns with the
lock free again, after exactly one acquisition and one release with the use of
the wrapped container in between: a read-lock cycle for `Do`, `SyncMap.Get`,
`SyncMap.Foreach` (whatever the visitor returns), `SyncVector.Append` and
`SyncComparableVector.Contains`, a write-lock cycle for `DoMut`, `SyncMap.Set`,
`SyncMap.Delete` and `SyncVector.Push`; and the callback of `Do` and of
`DoMut` is applied once to the wrapped container. -/
theorem guarded_lock_cycle {K V E σ ε : Type} [GoEq K] [Inhabited V] [Inhabited E]
    [GoEq E] (sm : SyncMap K V) (sv : SyncVector E) (sc : SyncComparableVector E)
    (k : K) (v : V) (ro : RangeOrder (K × V)) (f : K → V → σ → σ × Option ε) (c : σ)
    (fm : Map K V → σ → Map K V × σ) (fv : Heap E → Vector E → σ → Heap E × Vector E × σ)
    (grow : Nat → Nat → Nat) (h : Heap E) (es : List E) (e : E)
    (hm : sm.RWMutex.Free) (hv : sv.RWMutex.Free) (hc : sc.lock.Free) :
    ((sm.Do fm c).map (fun r => (r.1.RWMutex, r.1.It, r.2)) =
        .ok (⟨0, false, sm.RWMutex.history ++ [.rlock, .read, .runlock]⟩, fm sm.It c) ∧
      (sm.Get k).map (fun r => r.2.RWMutex) =
        .ok ⟨0, false, sm.RWMutex.history ++ [.rlock, .read, .runlock]⟩ ∧
      (sm.Foreach ro f c).map (fun r => r.1.RWMutex) =
        .ok ⟨0, false, sm.RWMutex.history ++ [.rlock, .read, .runlock]⟩ ∧
      (sv.Do h fv c).map (fun r => (r.2.1.RWMutex, r.1, r.2.1.It, r.2.2)) =
        .ok (⟨0, false, sv.RWMutex.history ++ [.rlock, .read, .runlock]⟩, fv h sv.It c) ∧
      (sv.Append grow h es).map (fun r => r.2.2.RWMutex) =
        .ok ⟨0, false, sv.RWMutex.history ++ [.rlock, .read, .runlock]⟩ ∧
      (sc.Contains h e).map (fun r => r.2.lock) =
        .ok ⟨0, false, sc.lock.history ++ [.rlock, .read, .runlock]⟩) ∧
    ((sm.DoMut fm c).map (fun r => (r.1.RWMutex, r.1.It, r.2)) =
        .ok (⟨0, false, sm.RWMutex.history ++ [.lock, .write, .unlock]⟩, fm sm.It c) ∧
      (sm.Set k v).map (fun r => r.RWMutex) =
        .ok ⟨0, false, sm.RWMutex.history ++ [.lock, .write, .unlock]⟩ ∧
      (sm.Delete k).map (fun r => r.RWMutex) =
        .ok ⟨0, false, sm.RWMutex.history ++ [.lock, .write, .unlock]⟩ ∧
      (sv.DoMut h fv c).map (fun r => (r.2.1.RWMutex, r.1, r.2.1.It, r.2.2)) =
        .ok (⟨0, false, sv.RWMutex.history ++ [.lock, .write, .unlock]⟩, fv h sv.It c) ∧
      (sv.Push grow h es).map (fun r => r.2.RWMutex) =
        .ok ⟨0, false, sv.RWMutex.history ++ [.lock, .write, .unlock]⟩) := by
  refine ⟨⟨?_, ?_, ?_, ?_, ?_, ?_⟩, ⟨?_, ?_, ?_, ?_, ?_⟩⟩
  · rw [SyncMap.Do_eq sm fm c hm]
    rfl
  · rw [SyncMap.Get_eq_of_free sm k hm]
    rfl
  · rw [SyncMap.Foreach_eq ro sm f c hm]
    rfl
  · rw [SyncVector.Do_eq_of_free h sv fv c hv]
    rfl
  · rw [SyncVector.Append_eq grow h sv es hv]
    rfl
  · rw [SyncComparableVector.Contains_eq h sc e hc]
    rfl
  · rw [SyncMap.DoMut_eq sm fm c hm]
    rfl
  · rw [SyncMap.Set_eq_of_free sm k v hm]
    rfl
  · rw [SyncMap.Delete_eq sm k hm]
    rfl
  · rw [SyncVector.DoMut_eq_of_free h sv fv c hv]
    rfl
  · rw [SyncVector.Push_eq grow h sv es hv]
    rfl

/-- Witness of C15: `SyncMap.Foreach` with a visitor that fails on every entry,
started with the lock free, ends with the lock free after one read-lock
cycle. -/
theorem guarded_lock_cycle_witness :
    ((SyncMap.mk (Map.mk (some [(1, 10), (2, 20)])) ⟨0, false, []⟩ : SyncMap Nat Nat).Foreach
      (RangeOrder.stored _) (fun _ _ (n : Nat) => (n + 1, some 7)) 0).map
      (fun r => r.1.RWMutex) = .ok ⟨0, false, [] ++ [.rlock, .read, .runlock]⟩ :=
  (guarded_lock_cycle (SyncMap.mk (Map.mk (some [(1, 10), (2, 20)])) ⟨0, false, []⟩)
    (SyncVector.mk (Vector.mk ⟨0, 0, 0, 0⟩) ⟨0, false, []⟩ : SyncVector Nat)
    (SyncComparableVector.mk (ComparableVector.mk (Vector.mk ⟨0, 0, 0, 0⟩)) ⟨0, false, []⟩)
    2 21 (RangeOrder.stored _) (fun _ _ (n : Nat) => (n + 1, some 7)) 0
    (fun m n => (m, n)) (fun hp w n => (hp, w, n))
    (fun _ n => n) [] [] 0 (by decide) (by decide) (by decide)).1.2.2.1

/-- C16, the code at the failing input: the methods `Len`, `Cap`, `Append`,
`Push`, `PopN` and `Pop` that `SyncComparableVector` obtains from the embedded
`ComparableVector` make no call on the lock; on the zero value, whose lock is
free, the promoted `Push(7)` writes the wrapped container (its contents become
`[7]`) and the history `[write]` of the call is not guarded, whereas
`SyncVector.Push(7)` on the zero value leaves the guarded history
`[lock, write, unlock]`. -/
theorem SyncComparableVector.promoted_unguarded {E : Type} [Inhabited E]
    (grow : Nat → Nat → Nat) (h : Heap E) (a : SyncComparableVector E) (es : List E) (n : Int) :
    (a.Len.2.lock = a.lock.note .read ∧ a.Cap.2.lock = a.lock.note .read ∧
      (a.Append grow h es).2.2.lock = a.lock.note .read ∧
      (a.Push grow h es).2.lock = a.lock.note .write ∧
      (∀ a', a.PopN n = .ok a' → a'.lock = a.lock.note .write) ∧
      (∀ a', a.Pop = .ok a' → a'.lock = a.lock.note .write)) ∧
    ((SyncComparableVector.mk (ComparableVector.mk (Vector.mk ⟨0, 0, 0, 0⟩)) ⟨0, false, []⟩ :
        SyncComparableVector Nat).Push (fun _ m => m) [] [7]).2.lock = ⟨0, false, [.write]⟩ ∧
    ((SyncComparableVector.mk (ComparableVector.mk (Vector.mk ⟨0, 0, 0, 0⟩)) ⟨0, false, []⟩ :
        SyncComparableVector Nat).Push (fun _ m => m) [] [7]).2.ComparableVector.Vector.elems
      ((SyncComparableVector.mk (ComparableVector.mk (Vector.mk ⟨0, 0, 0, 0⟩)) ⟨0, false, []⟩ :
        SyncComparableVector Nat).Push (fun _ m => m) [] [7]).1 = [7] ∧
    ¬ Guarded [.write] ∧
    ((SyncVector.mk (Vector.mk ⟨0, 0, 0, 0⟩) ⟨0, false, []⟩ : SyncVector Nat).Push
      (fun _ m => m) [] [7]).map (fun r => r.2.RWMutex) = .ok ⟨0, false, [.lock, .write, .unlock]⟩ ∧
    Guarded [.lock, .write, .unlock] := by
  refine ⟨⟨rfl, rfl, rfl, rfl, ?_, ?_⟩, rfl, rfl, by decide, rfl, by decide⟩
  · intro a' hp
    unfold SyncComparableVector.PopN at hp
    cases hq : a.ComparableVector.PopN n with
    | error f =>
      rw [hq] at hp
      cases hp
    | ok c =>
      rw [hq, bind_ok_eq] at hp
      cases hp
      rfl
  · intro a' hp
    unfold SyncComparableVector.Pop at hp
    cases hq : a.ComparableVector.Pop with
    | error f =>
      rw [hq] at hp
      cases hp
    | ok c =>
      rw [hq, bind_ok_eq] at hp
      cases hp
      rfl

end Collection
